import Mathlib

/-!
# JSONPP (JONX) codec — verification development

A shallow embedding of the JSONPP columnar codec
(`src/jsonplusplus/encoder.py`, `src/jsonplusplus/decoder.py`, and the
`preview` endpoint of `server.py`) together with proofs about the
embedded definitions.

Modelling conventions:
* Python scalar values are the inductive `Value`; Python floats are
  modelled as rationals (exact arithmetic stands in for IEEE binary64).
* Byte buffers are `List Nat`; `struct.pack("I", ·)` is `toLE4`.
* The zstd compressor is modelled as a self-framing codec `zc`/`zd`
  that length-prefixes its payload: it round-trips, and refuses a
  truncated frame, which is the behaviour the decoder relies on.
* `orjson.dumps`/`loads` of a value list, of an index list, and of the
  schema dictionary are modelled by concrete injective serializers
  (`dumpValues`, `dumpNats`, `dumpSchema`) with matching parsers.
* Operations that raise Python exceptions return `none`.
* The binary16/binary32 narrowing applied by `numpy`/`struct` when a
  float column is packed is a parameter `f16`/`f32 : ℚ → ℚ` of the
  encoder; real IEEE rounding is monotone and fixes representable
  values, which is exactly what the theorems assume where needed.
-/

namespace JSONPP

/-- The storage types of the codec (`detect_type` in `encoder.py`). -/
inductive JType where
  | int16
  | int32
  | float16
  | float32
  | bool
  | str
  | json
deriving DecidableEq, Repr

/-- JSON-like scalar values held in a column.  Nested arrays/objects are
not modelled; `vNull` is the representative of the `json` fallback class
(`detect_type` sends any non-bool/int/float/str first element to
`"json"`). -/
inductive Value where
  | vNull
  | vBool (b : Bool)
  | vInt (n : Int)
  | vFloat (q : ℚ)
  | vStr (s : String)
deriving DecidableEq, Repr

/-- A record: an ordered field→value mapping (a Python dict). -/
abbrev Row := List (String × Value)

/-- The keys of a record, in order. -/
def keysOf (r : Row) : List String := r.map Prod.fst

/-- Numeric view of a value, as used by Python comparisons and
arithmetic: `bool` is a subtype of `int` in Python, so `True` counts
as `1`; strings, `None` and nested values are not comparable with
numbers (comparing raises `TypeError`), hence `none`. -/
def numToRat : Value → Option ℚ
  | Value.vBool b => some (if b then 1 else 0)
  | Value.vInt n => some (n : ℚ)
  | Value.vFloat q => some q
  | _ => none

/-- The integer nearest to `1000*q`, halves rounded to even: the exact
arithmetic core of Python `round(q, 3)`.  Computed on the numerator and
denominator directly (for `q = n/d` with `d > 0`, `fl = ⌊1000n/d⌋` and
`rem = 1000n - d*fl` is the remainder, so the fractional part of
`1000*q` is `rem/d`). -/
def rhe3 (q : ℚ) : ℤ :=
  let n : ℤ := 1000 * q.num
  let d : ℤ := (q.den : ℤ)
  let fl : ℤ := Int.fdiv n d
  let rem : ℤ := n - d * fl
  if 2 * rem < d then fl
  else if d < 2 * rem then fl + 1
  else if fl % 2 = 0 then fl else fl + 1

/-- Python `round(q, 3)` with banker's (half-to-even) rounding,
modelled with exact rational arithmetic. -/
def pyRound3 (q : ℚ) : ℚ :=
  Rat.divInt (rhe3 q) 1000

/-- `detect_numeric_type_int` (`encoder.py`): computes `min(values)` and
`max(values)` (raising, i.e. `none`, if some value is not comparable
with numbers) and narrows to `int16` when both lie in
`[-32768, 32767]`. -/
def detect_numeric_type_int (values : List Value) : Option JType := do
  let qs ← values.mapM numToRat
  match qs with
  | [] => some JType.int32
  | q :: rest =>
    let mn := rest.foldl min q
    let mx := rest.foldl max q
    if -32768 ≤ mn ∧ mn ≤ 32767 ∧ -32768 ≤ mx ∧ mx ≤ 32767 then
      some JType.int16
    else
      some JType.int32

/-- `detect_numeric_type_float` (`encoder.py`): scans the values in
order; the first value outside `[-65504, 65504]` or not equal to its
3-decimal rounding yields `float32`; a value that cannot be compared
with numbers raises (`none`); if the scan completes, `float16`. -/
def detect_numeric_type_float : List Value → Option JType
  | [] => some JType.float16
  | v :: rest =>
    match numToRat v with
    | none => none
    | some q =>
      if q < -65504 ∨ 65504 < q then some JType.float32
      else if pyRound3 q ≠ q then some JType.float32
      else detect_numeric_type_float rest

/-- `detect_type` (`encoder.py`): dispatches on the type of the first
element only, then runs the numeric range scans. -/
def detect_type (values : List Value) : Option JType :=
  match values with
  | [] => none
  | first :: _ =>
    match first with
    | Value.vBool _ => some JType.bool
    | Value.vInt _ => detect_numeric_type_int values
    | Value.vFloat _ => detect_numeric_type_float values
    | Value.vStr _ => some JType.str
    | Value.vNull => some JType.json

/-! ## Byte-level primitives

Byte buffers are `List ℕ`.  `toLE4` is `struct.pack("I", ·)` (32-bit
little-endian length fields); `le4w` is the checked form that raises
(`none`) when the value does not fit, as `struct.pack` does.  `takeN`
models taking a slice of exactly `k` bytes at the cursor: the decoder's
`struct.unpack` calls fail when fewer bytes remain. -/

/-- `struct.pack("I", n)`: four little-endian base-256 digits. -/
def toLE4 (n : ℕ) : List ℕ :=
  [n % 256, n / 256 % 256, n / 256 ^ 2 % 256, n / 256 ^ 3 % 256]

/-- Read back a 32-bit little-endian length field. -/
def fromLE4 (l : List ℕ) : ℕ :=
  match l with
  | [a, b, c, d] => a + 256 * (b + 256 * (c + 256 * d))
  | _ => 0

/-- Checked `struct.pack("I", n)`: raises (`none`) when `n ≥ 2^32`. -/
def le4w (n : ℕ) : Option (List ℕ) :=
  if n < 2 ^ 32 then some (toLE4 n) else none

/-- Take exactly `k` bytes from the cursor, failing when fewer remain. -/
def takeN (k : ℕ) (l : List ℕ) : Option (List ℕ × List ℕ) :=
  if k ≤ l.length then some (l.take k, l.drop k) else none

/-! ## Compression model

zstd is modelled as a self-framing block codec: a compressed frame is
its payload length followed by the payload.  What the repository's code
relies on is exactly (a) `decompress (compress b) = b` and (b) a frame
cut short by truncation fails to decompress; both hold for this model
as for real zstd frames. -/

/-- `ZSTD.compress` (the compression level does not change the model). -/
def zc (b : List ℕ) : List ℕ := toLE4 b.length ++ b

/-- `ZstdDecompressor().decompress`: rejects a frame whose payload is
not exactly the declared length (in particular any truncated frame). -/
def zd (l : List ℕ) : Option (List ℕ) := do
  let (lenb, rest) ← takeN 4 l
  if rest.length = fromLE4 lenb then some rest else none

/-! ## Serialization of numbers, strings, values (the orjson model)

`orjson.dumps`/`loads` of a list of scalar values, of an index list and
of the schema dictionary are modelled by a concrete length-prefixed
injective coding with matching parsers.  Parsers fail (`none`) on any
malformed input, and the value-list/nat-list/schema parsers insist the
whole buffer is consumed, as `orjson.loads` does. -/

/-- Little-endian base-256 digits, with explicit fuel (`n` itself is
enough fuel since a number has at most `n` digits). -/
def digits256Aux : ℕ → ℕ → List ℕ
  | 0, _ => []
  | fuel + 1, n => if n = 0 then [] else n % 256 :: digits256Aux fuel (n / 256)

/-- Little-endian base-256 digits of `n` (empty for `0`). -/
def natDigits (n : ℕ) : List ℕ := digits256Aux n n

/-- Recombine little-endian base-256 digits. -/
def ofDigits256 : List ℕ → ℕ
  | [] => 0
  | d :: rest => d + 256 * ofDigits256 rest

/-- A natural number, length-prefixed. -/
def natBytes (n : ℕ) : List ℕ := (natDigits n).length :: natDigits n

/-- Parse a length-prefixed natural number. -/
def readNatB (l : List ℕ) : Option (ℕ × List ℕ) :=
  match l with
  | [] => none
  | k :: rest => (takeN k rest).map (fun p => (ofDigits256 p.1, p.2))

/-- An integer: sign byte then magnitude. -/
def intBytes (z : ℤ) : List ℕ :=
  (if z < 0 then 1 else 0) :: natBytes z.natAbs

/-- Parse an integer. -/
def readIntB (l : List ℕ) : Option (ℤ × List ℕ) :=
  match l with
  | [] => none
  | s :: rest =>
    (readNatB rest).map (fun p => (if s = 1 then -(p.1 : ℤ) else (p.1 : ℤ), p.2))

/-- A rational: numerator then denominator. -/
def ratBytes (q : ℚ) : List ℕ := intBytes q.num ++ natBytes q.den

/-- Parse a rational. -/
def readRatB (l : List ℕ) : Option (ℚ × List ℕ) := do
  let (n, r) ← readIntB l
  let (d, r2) ← readNatB r
  pure (Rat.divInt n (d : ℤ), r2)

/-- A string: length then one element per character (code points; field
names in this development are ASCII, where this agrees with UTF-8). -/
def strBytes (s : String) : List ℕ :=
  natBytes s.length ++ s.data.map Char.toNat

/-- Parse a string. -/
def readStrB (l : List ℕ) : Option (String × List ℕ) := do
  let (n, r) ← readNatB l
  let (cs, r2) ← takeN n r
  pure (String.mk (cs.map Char.ofNat), r2)

/-- One serialized scalar value, tagged by constructor. -/
def dumpValue : Value → List ℕ
  | Value.vNull => [0]
  | Value.vBool b => [1, if b then 1 else 0]
  | Value.vInt n => 2 :: intBytes n
  | Value.vFloat q => 3 :: ratBytes q
  | Value.vStr s => 4 :: strBytes s

/-- Parse one serialized scalar value. -/
def readValueB (l : List ℕ) : Option (Value × List ℕ) :=
  match l with
  | 0 :: r => some (Value.vNull, r)
  | 1 :: b :: r => some (Value.vBool (b ≠ 0), r)
  | 2 :: r => (readIntB r).map (fun p => (Value.vInt p.1, p.2))
  | 3 :: r => (readRatB r).map (fun p => (Value.vFloat p.1, p.2))
  | 4 :: r => (readStrB r).map (fun p => (Value.vStr p.1, p.2))
  | _ => none

/-- Concatenated serializations of a list of values. -/
def dumpValueList : List Value → List ℕ
  | [] => []
  | v :: vs => dumpValue v ++ dumpValueList vs

/-- `orjson.dumps(values)` for a whole column: count then the values. -/
def dumpValues (vs : List Value) : List ℕ :=
  natBytes vs.length ++ dumpValueList vs

/-- Parse exactly `k` serialized values. -/
def parseValuesAux : ℕ → List ℕ → Option (List Value × List ℕ)
  | 0, l => some ([], l)
  | k + 1, l => do
    let (v, r) ← readValueB l
    let (vs, r2) ← parseValuesAux k r
    pure (v :: vs, r2)

/-- `orjson.loads` of a serialized column: the whole buffer must be
consumed. -/
def parseValues (l : List ℕ) : Option (List Value) := do
  let (n, r) ← readNatB l
  let (vs, r2) ← parseValuesAux n r
  if r2 = [] then pure vs else none

/-- Concatenated serializations of a list of naturals. -/
def dumpNatList : List ℕ → List ℕ
  | [] => []
  | n :: ns => natBytes n ++ dumpNatList ns

/-- `orjson.dumps(sorted_idx)`: count then the row positions. -/
def dumpNats (ns : List ℕ) : List ℕ :=
  natBytes ns.length ++ dumpNatList ns

/-- Parse exactly `k` serialized naturals. -/
def parseNatsAux : ℕ → List ℕ → Option (List ℕ × List ℕ)
  | 0, l => some ([], l)
  | k + 1, l => do
    let (n, r) ← readNatB l
    let (ns, r2) ← parseNatsAux k r
    pure (n :: ns, r2)

/-- `orjson.loads` of a serialized index list. -/
def parseNats (l : List ℕ) : Option (List ℕ) := do
  let (n, r) ← readNatB l
  let (ns, r2) ← parseNatsAux n r
  if r2 = [] then pure ns else none

/-- Tag byte for a storage type name. -/
def typeTag : JType → ℕ
  | JType.int16 => 0
  | JType.int32 => 1
  | JType.float16 => 2
  | JType.float32 => 3
  | JType.bool => 4
  | JType.str => 5
  | JType.json => 6

/-- Recover a storage type from its tag. -/
def typeOfTag : ℕ → Option JType
  | 0 => some JType.int16
  | 1 => some JType.int32
  | 2 => some JType.float16
  | 3 => some JType.float32
  | 4 => some JType.bool
  | 5 => some JType.str
  | 6 => some JType.json
  | _ => none

/-- Concatenated serializations of the field-name list. -/
def dumpStrList : List String → List ℕ
  | [] => []
  | s :: ss => strBytes s ++ dumpStrList ss

/-- Concatenated serializations of the field→type mapping. -/
def dumpTypeList : List (String × JType) → List ℕ
  | [] => []
  | (f, t) :: r => strBytes f ++ typeTag t :: dumpTypeList r

/-- `orjson.dumps({fields: ..., types: ...})` — the schema block
payload. -/
def dumpSchema (fields : List String) (types : List (String × JType)) : List ℕ :=
  natBytes fields.length ++ dumpStrList fields ++
    natBytes types.length ++ dumpTypeList types

/-- Parse exactly `k` serialized field names. -/
def parseStrsAux : ℕ → List ℕ → Option (List String × List ℕ)
  | 0, l => some ([], l)
  | k + 1, l => do
    let (s, r) ← readStrB l
    let (ss, r2) ← parseStrsAux k r
    pure (s :: ss, r2)

/-- Parse exactly `k` serialized field→type pairs. -/
def parseTypesAux : ℕ → List ℕ → Option (List (String × JType) × List ℕ)
  | 0, l => some ([], l)
  | k + 1, l => do
    let (f, r) ← readStrB l
    match r with
    | [] => none
    | tg :: r2 => do
      let t ← typeOfTag tg
      let (ts, r3) ← parseTypesAux k r2
      pure ((f, t) :: ts, r3)

/-- `orjson.loads` of the schema block. -/
def parseSchema (l : List ℕ) : Option (List String × List (String × JType)) := do
  let (nf, r) ← readNatB l
  let (fields, r2) ← parseStrsAux nf r
  let (nt, r3) ← readNatB r2
  let (types, r4) ← parseTypesAux nt r3
  if r4 = [] then pure (fields, types) else none

/-! ## Column packing and unpacking (`pack_column` and the decoder's
per-type branches) -/

/-- Concatenate a list of byte chunks. -/
def catList : List (List ℕ) → List ℕ
  | [] => []
  | x :: r => x ++ catList r

/-- `struct.pack("h", v)`'s view of one value: Python requires an
`__index__` (an `int`, of which `bool` is a subtype) in the int16
range; anything else raises `struct.error`. -/
def toI16 : Value → Option ℤ
  | Value.vInt n => if -32768 ≤ n ∧ n < 32768 then some n else none
  | Value.vBool b => some (if b then 1 else 0)
  | _ => none

/-- `struct.pack("i", v)`'s view of one value. -/
def toI32 : Value → Option ℤ
  | Value.vInt n => if -(2 ^ 31) ≤ n ∧ n < 2 ^ 31 then some n else none
  | Value.vBool b => some (if b then 1 else 0)
  | _ => none

/-- Two's-complement little-endian encoding of an int16. -/
def i16Bytes (z : ℤ) : List ℕ :=
  let u := (z % 65536).toNat
  [u % 256, u / 256]

/-- Decode one little-endian two's-complement int16. -/
def decI16 (a b : ℕ) : ℤ :=
  let u := a + 256 * b
  if u < 32768 then (u : ℤ) else (u : ℤ) - 65536

/-- Two's-complement little-endian encoding of an int32. -/
def i32Bytes (z : ℤ) : List ℕ :=
  let u := (z % 2 ^ 32).toNat
  [u % 256, u / 256 % 256, u / 256 ^ 2 % 256, u / 256 ^ 3 % 256]

/-- Decode one little-endian two's-complement int32. -/
def decI32 (a b c d : ℕ) : ℤ :=
  let u := a + 256 * (b + 256 * (c + 256 * d))
  if u < 2 ^ 31 then (u : ℤ) else (u : ℤ) - 2 ^ 32

/-- Python truthiness, used by the `bool` packing rule
`1 if v else 0`. -/
def truthy : Value → Bool
  | Value.vNull => false
  | Value.vBool b => b
  | Value.vInt n => if n = 0 then false else true
  | Value.vFloat q => if q = 0 then false else true
  | Value.vStr s => if s = "" then false else true

/-- `pack_column` (`encoder.py`).  The float16/float32 branches apply
the narrowing functions `f16`/`f32` (the IEEE binary16/binary32
round-trip performed by `numpy`/`struct`) to each numeric value and
store the narrowed rationals; widening back to a Python float on unpack
is exact, so the stored rational is what decode will observe. -/
def pack_column (f16 f32 : ℚ → ℚ) (values : List Value) : JType → Option (List ℕ)
  | JType.int16 => (values.mapM toI16).map (fun zs => catList (zs.map i16Bytes))
  | JType.int32 => (values.mapM toI32).map (fun zs => catList (zs.map i32Bytes))
  | JType.float16 =>
    (values.mapM numToRat).map (fun qs => catList (qs.map (fun q => ratBytes (f16 q))))
  | JType.float32 =>
    (values.mapM numToRat).map (fun qs => catList (qs.map (fun q => ratBytes (f32 q))))
  | JType.bool => some (values.map (fun v => if truthy v then 1 else 0))
  | _ => some (dumpValues values)

/-- Unpack an int16 column blob: pairs of bytes; `struct.unpack`
rejects a blob whose length is not an exact multiple of the item
size. -/
def unpackI16 : List ℕ → Option (List ℤ)
  | [] => some []
  | a :: b :: r => (unpackI16 r).map (decI16 a b :: ·)
  | _ => none

/-- Unpack an int32 column blob: quadruples of bytes. -/
def unpackI32 : List ℕ → Option (List ℤ)
  | [] => some []
  | a :: b :: c :: d :: r => (unpackI32 r).map (decI32 a b c d :: ·)
  | _ => none

/-- Parse consecutive serialized rationals until the blob is exhausted
(the float columns' analogue of `len(packed) // itemsize` items). -/
def parseRatsAux : ℕ → List ℕ → Option (List ℚ)
  | 0, l => if l = [] then some [] else none
  | fuel + 1, l =>
    if l = [] then some []
    else do
      let (q, r) ← readRatB l
      (parseRatsAux fuel r).map (q :: ·)

/-- Parse a float column blob. -/
def parseRats (l : List ℕ) : Option (List ℚ) := parseRatsAux l.length l

/-- The decoder's per-type column unpacking (`decode_from_bytes` /
`JONXFile._decompress_column`).  float16 values are widened to float32
and then to a Python float, which is exact, so the stored narrowed
rationals are returned unchanged. -/
def unpack_column (t : JType) (packed : List ℕ) : Option (List Value) :=
  match t with
  | JType.int16 => (unpackI16 packed).map (List.map Value.vInt)
  | JType.int32 => (unpackI32 packed).map (List.map Value.vInt)
  | JType.float16 => (parseRats packed).map (List.map Value.vFloat)
  | JType.float32 => (parseRats packed).map (List.map Value.vFloat)
  | JType.bool => some (packed.map (fun b => Value.vBool (if b = 0 then false else true)))
  | _ => parseValues packed

/-! ## Index construction -/

/-- The sort key comparison used by
`sorted(range(n), key=lambda i: columns[f][i])`: compare positions by
their column value. -/
def keyLe (ks : List ℚ) (i j : ℕ) : Prop := ks.getD i 0 ≤ ks.getD j 0

instance (ks : List ℚ) : DecidableRel (keyLe ks) := fun i j =>
  inferInstanceAs (Decidable (ks.getD i 0 ≤ ks.getD j 0))

/-- `sorted(range(n), key=lambda i: values[i])`: a stable ascending
sort of the row positions by column value, here via insertion sort
(Python's sort is also stable, and a stable ascending sort of distinct
positions is unique). -/
def build_index (ks : List ℚ) : List ℕ :=
  (List.range ks.length).insertionSort (keyLe ks)

/-- Whether an automatic index is built for a column of this storage
type (`t in ("int16", "int32", "float16", "float32")`). -/
def isNumericType : JType → Bool
  | JType.int16 => true
  | JType.int32 => true
  | JType.float16 => true
  | JType.float32 => true
  | _ => false

/-- The encoder's index loop: for each numeric-typed field, compress
the serialized sort permutation of the column.  The `mapM numToRat`
models the value comparisons performed by `sorted` (they raise on
values not comparable with numbers). -/
def buildIndexes (f16 f32 : ℚ → ℚ) : List (String × List Value × JType) →
    Option (List (String × List ℕ))
  | [] => some []
  | (f, col, t) :: rest => do
    let tail ← buildIndexes f16 f32 rest
    if isNumericType t then do
      let ks ← col.mapM numToRat
      pure ((f, zc (dumpNats (build_index ks))) :: tail)
    else pure tail

/-! ## The encoder (`encode_to_bytes`) -/

/-- The container magic tag `b"JONX"`. -/
def MAGIC : List ℕ := [74, 79, 78, 88]

/-- The intermediate data `encode_to_bytes` computes before writing the
byte stream: field order, raw columns, detected types, compressed
column blobs, and compressed index blobs (numeric fields only, in field
order). -/
structure Parts where
  fields : List String
  columns : List (List Value)
  types : List JType
  comp : List (List ℕ)
  indexes : List (String × List ℕ)
deriving DecidableEq, Repr

/-- The validation, detection, packing, compression and index phases of
`encode_to_bytes` (everything before the output stream is written).
An empty input raises; a record missing one of the first record's
fields raises `KeyError` during column building. -/
def encodeParts (f16 f32 : ℚ → ℚ) (rows : List Row) : Option Parts :=
  match rows with
  | [] => none
  | r0 :: _ => do
    let fields := keysOf r0
    let columns ← fields.mapM (fun f => rows.mapM (fun r => r.lookup f))
    let types ← columns.mapM detect_type
    let comp ← (columns.zip types).mapM
      (fun ct => (pack_column f16 f32 ct.1 ct.2).map zc)
    let indexes ← buildIndexes f16 f32
      ((fields.zip (columns.zip types)).map (fun x => (x.1, x.2.1, x.2.2)))
    pure ⟨fields, columns, types, comp, indexes⟩

/-- Writing the output stream: header, length-prefixed schema block,
length-prefixed column blocks in field order, index count, and one
length-prefixed name + length-prefixed blob per index.  Length fields
are checked 32-bit writes (`struct.pack("I", ·)`).  As in the source,
an index entry's name-length field holds `len(f)` (character count)
while the name bytes are the encoded name — identical for ASCII field
names. -/
def assemble (parts : Parts) : Option (List ℕ) := do
  let sb := zc (dumpSchema parts.fields (parts.fields.zip parts.types))
  let sLen ← le4w sb.length
  let colBlocks ← parts.comp.mapM (fun c => (le4w c.length).map (· ++ c))
  let nIdx ← le4w parts.indexes.length
  let idxBlocks ← parts.indexes.mapM (fun fi => do
    let nl ← le4w fi.1.length
    let bl ← le4w fi.2.length
    pure (nl ++ fi.1.data.map Char.toNat ++ bl ++ fi.2))
  pure (MAGIC ++ toLE4 1 ++ sLen ++ sb ++ catList colBlocks ++ nIdx ++ catList idxBlocks)

/-- `encode_to_bytes` (`encoder.py`). -/
def encode_to_bytes (f16 f32 : ℚ → ℚ) (rows : List Row) : Option (List ℕ) :=
  (encodeParts f16 f32 rows).bind assemble

/-! ## The decoder (`decode_from_bytes`) -/

/-- The decoded container: version, schema, and the reconstructed
records. -/
structure DecodeResult where
  version : ℕ
  fields : List String
  types : List (String × JType)
  num_rows : ℕ
  json_data : List Row
deriving DecidableEq, Repr

/-- Magic check (`data.startswith(b"JONX")`, a `ValueError` when it
fails) and the version read (`struct.unpack("I", data[4:8])`, a
`struct.error` when fewer than 8 bytes exist). -/
def readHeader (b : List ℕ) : Option (ℕ × List ℕ) :=
  if b.take 4 = MAGIC then
    (takeN 4 (b.drop 4)).map (fun p => (fromLE4 p.1, p.2))
  else none

/-- A length-prefixed block: 4-byte length, then that many bytes. -/
def readBlock (l : List ℕ) : Option (List ℕ × List ℕ) := do
  let (lb, r) ← takeN 4 l
  takeN (fromLE4 lb) r

/-- The decoder's column loop: one length-prefixed compressed block per
schema field, decompressed and unpacked by the field's schema type
(`types[field]`, a `KeyError` when absent). -/
def readCols (types : List (String × JType)) :
    List String → List ℕ → Option (List (String × List Value) × List ℕ)
  | [], l => some ([], l)
  | f :: fs, l => do
    let (blk, r) ← readBlock l
    let packed ← zd blk
    let t ← types.lookup f
    let col ← unpack_column t packed
    let (cols, r2) ← readCols types fs r
    pure ((f, col) :: cols, r2)

/-- The decoder's index loop: indexes are skipped, not read — only the
two length fields of each entry are read, and the name and blob bytes
are stepped over (`offset += 4 + name_len; offset += 4 + idx_size`). -/
def skipIndexes : ℕ → List ℕ → Option (List ℕ)
  | 0, l => some l
  | k + 1, l => do
    let (nl, r) ← takeN 4 l
    let r2 := r.drop (fromLE4 nl)
    let (il, r3) ← takeN 4 r2
    skipIndexes k (r3.drop (fromLE4 il))

/-- Row reconstruction: `num_rows` is the length of the first schema
field's column (0 when there are no fields), and row `i` collects
`columns[field][i]` in schema order (an `IndexError`, i.e. `none`, when
a later column is shorter than the first). -/
def reconstruct (version : ℕ) (fields : List String)
    (types : List (String × JType)) (cols : List (String × List Value)) :
    Option DecodeResult := do
  let numRows ← match fields with
    | [] => some 0
    | f0 :: _ => (cols.lookup f0).map List.length
  let rows ← (List.range numRows).mapM (fun i =>
    fields.mapM (fun f => do
      let col ← cols.lookup f
      let v ← col.get? i
      pure (f, v)))
  pure ⟨version, fields, types, numRows, rows⟩

/-- `decode_from_bytes` (`decoder.py`). -/
def decode_from_bytes (b : List ℕ) : Option DecodeResult := do
  let (version, c1) ← readHeader b
  let (sb, c2) ← readBlock c1
  let sc ← zd sb
  let (fields, types) ← parseSchema sc
  let (cols, c3) ← readCols types fields c2
  let (nIdxB, c4) ← takeN 4 c3
  let _ ← skipIndexes (fromLE4 nIdxB) c4
  reconstruct version fields types cols

/-! ## The lazy reader (`JONXFile`) and `find_min` -/

/-- The state `JONXFile._load_file` builds: schema plus the raw
compressed column and index blobs. -/
structure JONXFile where
  fields : List String
  types : List (String × JType)
  compressed_columns : List (String × List ℕ)
  indexes : List (String × List ℕ)
deriving DecidableEq, Repr

/-- `_load_file`'s column loop: a 4-byte size (`struct.unpack`, which
needs all 4 bytes) then a plain slice of that many bytes (Python
slicing does not bounds-check). -/
def readRawCols : List String → List ℕ → Option (List (String × List ℕ) × List ℕ)
  | [], l => some ([], l)
  | f :: fs, l => do
    let (szB, r) ← takeN 4 l
    let blk := r.take (fromLE4 szB)
    let (rest, r2) ← readRawCols fs (r.drop (fromLE4 szB))
    pure ((f, blk) :: rest, r2)

/-- `_load_file`'s index loop: name length, name slice, blob length,
blob slice. -/
def readIdxEntries : ℕ → List ℕ → Option (List (String × List ℕ) × List ℕ)
  | 0, l => some ([], l)
  | k + 1, l => do
    let (nl, r) ← takeN 4 l
    let nameB := r.take (fromLE4 nl)
    let r2 := r.drop (fromLE4 nl)
    let (il, r3) ← takeN 4 r2
    let blob := r3.take (fromLE4 il)
    let (rest, r5) ← readIdxEntries k (r3.drop (fromLE4 il))
    pure ((String.mk (nameB.map Char.ofNat), blob) :: rest, r5)

/-- `JONXFile._load_file`: run `decode_from_bytes` for the schema, then
re-walk the buffer keeping the compressed column and index blobs. -/
def jonxLoad (b : List ℕ) : Option JONXFile := do
  let res ← decode_from_bytes b
  let c0 := b.drop 8
  let (ssB, c1) ← takeN 4 c0
  let c2 := c1.drop (fromLE4 ssB)
  let (rawCols, c3) ← readRawCols res.fields c2
  let (nIdxB, c4) ← takeN 4 c3
  let (idxs, _) ← readIdxEntries (fromLE4 nIdxB) c4
  pure ⟨res.fields, res.types, rawCols, idxs⟩

/-- `JONXFile.get_column`: decompress and unpack one column blob on
demand. -/
def get_column (jf : JONXFile) (f : String) : Option (List Value) := do
  let blob ← jf.compressed_columns.lookup f
  let packed ← zd blob
  let t ← jf.types.lookup f
  unpack_column t packed

/-- One Python `a < b` comparison as performed by `min()`: numbers
compare by value (`bool` counts as 0/1), strings lexicographically,
anything else raises `TypeError`. -/
def pyLtVal (a b : Value) : Option Bool :=
  match numToRat a, numToRat b with
  | some qa, some qb => some (decide (qa < qb))
  | _, _ =>
    match a, b with
    | Value.vStr sa, Value.vStr sb => some (decide (sa < sb))
    | _, _ => none

/-- Python `min(column)`: scan left to right, keeping the first
minimal element; raises on an incomparable pair. -/
def pyMin (l : List Value) : Option Value :=
  match l with
  | [] => none
  | x :: xs =>
    xs.foldlM (fun acc v => (pyLtVal v acc).map (fun b => if b then v else acc)) x

/-- `JONXFile.find_min` (with the column already decompressed, as when
the caller passes `column=`): with `use_index` and a stored index for
the field, decompress and parse the index and return
`column[idx[0]]`; otherwise a full linear scan `min(column)`. -/
def find_min (jf : JONXFile) (f : String) (column : List Value)
    (use_index : Bool) : Option Value :=
  if use_index ∧ (jf.indexes.lookup f).isSome then do
    let blob ← jf.indexes.lookup f
    let packed ← zd blob
    let idx ← parseNats packed
    let i0 ← idx.get? 0
    column.get? i0
  else pyMin column

/-! ## The `preview` endpoint (`server.py`) -/

/-- What `/api/preview` reports. -/
structure PreviewResult where
  fields : List String
  types : List JType
  num_rows : ℕ
  estimated_size : ℕ
deriving DecidableEq, Repr

/-- The `preview` handler (`server.py`): columns are built with
`p.get(field)` (missing keys become `None`), types are detected as in
the encoder, and `estimated_size` sums header (8), schema block
(4 + compressed length), column blocks (4 + compressed length each),
the index-count field (4), and — only for `int32`/`float32` columns —
index entries (4 + name length + 4 + compressed index length).  In the
source this path compresses with `zstd` level 3 whereas the encoder's
module-level compressor uses level 7; the model's compressor is
level-independent, so only the structural part of the discrepancy (the
index-type filter) is visible here. -/
def preview (f16 f32 : ℚ → ℚ) (rows : List Row) : Option PreviewResult :=
  match rows with
  | [] => none
  | r0 :: _ => do
    let fields := keysOf r0
    let columns := fields.map (fun f => rows.map (fun r => (r.lookup f).getD Value.vNull))
    let types ← columns.mapM detect_type
    let schemaC := zc (dumpSchema fields (fields.zip types))
    let packs ← (columns.zip types).mapM (fun ct => pack_column f16 f32 ct.1 ct.2)
    let colSizes := packs.map (fun p => 4 + (zc p).length)
    let idxSizes ← ((fields.zip (columns.zip types)).map
        (fun x => (x.1, x.2.1, x.2.2))).mapM (fun fct =>
      if fct.2.2 = JType.int32 ∨ fct.2.2 = JType.float32 then do
        let ks ← fct.2.1.mapM numToRat
        pure (4 + fct.1.length + 4 + (zc (dumpNats (build_index ks))).length)
      else pure 0)
    pure ⟨fields, types, rows.length,
      8 + (4 + schemaC.length) + colSizes.sum + 4 + idxSizes.sum⟩

/-! ## Python equality of decoded records

Python `==` on lists of dicts: same length, and pairwise dict equality
(same key set, same value at every key — insertion order is
irrelevant). -/

/-- Python `dict.__eq__` for records (values compared structurally;
structural equality implies Python `==`). -/
def pyEqRow (a b : Row) : Bool :=
  a.all (fun kv => decide (b.lookup kv.1 = some kv.2)) &&
    b.all (fun kv => decide (a.lookup kv.1 = some kv.2))

/-- Python `==` on two record lists. -/
def pyEqRows (a b : List Row) : Bool :=
  decide (a.length = b.length) && (a.zip b).all (fun p => pyEqRow p.1 p.2)

/-! ## Predicates used in the claim statements -/

/-- Value `v` fits losslessly in storage type `t`: storing and reading
it back yields the very same JSON value.  For the float types this is
exactness of the IEEE narrowing (`f16`/`f32` fixes the value); for the
integer types, the two's-complement range; booleans only fit the `bool`
type (an `int16`-stored `True` would decode as `1`); every value
round-trips through the serialized `str`/`json` blob. -/
def fitsB (f16 f32 : ℚ → ℚ) (v : Value) : JType → Bool
  | JType.int16 =>
    match v with
    | Value.vInt n => decide (-32768 ≤ n ∧ n < 32768)
    | _ => false
  | JType.int32 =>
    match v with
    | Value.vInt n => decide (-(2 ^ 31) ≤ n ∧ n < 2 ^ 31)
    | _ => false
  | JType.float16 =>
    match v with
    | Value.vFloat q => decide (f16 q = q)
    | _ => false
  | JType.float32 =>
    match v with
    | Value.vFloat q => decide (f32 q = q)
    | _ => false
  | JType.bool =>
    match v with
    | Value.vBool _ => true
    | _ => false
  | JType.str => true
  | JType.json => true

/-- Every value of every column fits losslessly in its detected storage
type (`false` when the detection/packing phase itself fails). -/
def fitsAllB (f16 f32 : ℚ → ℚ) (rows : List Row) : Bool :=
  match encodeParts f16 f32 rows with
  | some parts =>
    (parts.columns.zip parts.types).all (fun ct => ct.1.all (fun v => fitsB f16 f32 v ct.2))
  | none => false

/-- All records share the first record's key set (as a set — Python
dict equality ignores insertion order). -/
def uniformKeysB (rows : List Row) : Bool :=
  match rows with
  | [] => false
  | r0 :: rest =>
    rest.all (fun r =>
      (keysOf r).all (fun k => decide (k ∈ keysOf r0)) &&
        (keysOf r0).all (fun k => decide (k ∈ keysOf r)))

/-- Each record's keys are distinct (always true of a Python dict). -/
def nodupKeysB (rows : List Row) : Bool :=
  rows.all (fun r => decide (keysOf r).Nodup)

/-- Numeric key of a value, defaulting to 0 (used only where all values
are provably numeric). -/
def ratOf (v : Value) : ℚ := (numToRat v).getD 0

/-- Strict "stable ascending" order on row positions: smaller value
first, ties broken by original position.  A stable ascending sort
permutation of `0..n-1` is exactly a permutation pairwise-ordered by
this relation. -/
def lexLtQ (ks : List ℚ) (i j : ℕ) : Prop :=
  ks.getD i 0 < ks.getD j 0 ∨ (ks.getD i 0 = ks.getD j 0 ∧ i < j)

/-- All values in the column are numbers (comparable by `min`). -/
def allNumB (vs : List Value) : Bool := vs.all (fun v => (numToRat v).isSome)

/-- Every value is a number in the int16 range (the claim's "every
value lies in `[-32768, 32767]`"). -/
def inI16RangeB (vs : List Value) : Bool :=
  vs.all (fun v =>
    match numToRat v with
    | some q => decide (-32768 ≤ q ∧ q ≤ 32767)
    | none => false)

/-- Every value is a number in `[-65504, 65504]` whose 3-decimal
rounding is lossless (the claim's float16 criterion). -/
def f16okB (vs : List Value) : Bool :=
  vs.all (fun v =>
    match numToRat v with
    | some q => decide (-65504 ≤ q ∧ q ≤ 65504 ∧ pyRound3 q = q)
    | none => false)

/-- A value that is not an integer in Python's sense (`bool` is a
subtype of `int`, so `True`/`False` count as integers). -/
def nonIntB : Value → Bool
  | Value.vInt _ => false
  | Value.vBool _ => false
  | _ => true

/-! ## Concrete inputs used by the claim theorems and witnesses -/

/-- Scenario 1's records: `[{"id": 1, "price": 10.5}, {"id": 2, "price": 20.25}]`. -/
def scen1 : List Row :=
  [[("id", Value.vInt 1), ("price", Value.vFloat (Rat.divInt 21 2))],
   [("id", Value.vInt 2), ("price", Value.vFloat (Rat.divInt 81 4))]]

/-- The container Scenario 1 encodes to (identity narrowing: its values
are exactly representable). -/
def scen1B : List ℕ := (encode_to_bytes id id scen1).getD []

/-- A single record with one int16 column: `[{"a": 1}]`. -/
def rowsA : List Row := [[("a", Value.vInt 1)]]

/-- The container `rowsA` encodes to. -/
def rowsAB : List ℕ := (encode_to_bytes id id rowsA).getD []

/-- Records whose second member has an extra field:
`[{"a": 1}, {"a": 2, "b": 3}]`. -/
def rowsExtra : List Row :=
  [[("a", Value.vInt 1)], [("a", Value.vInt 2), ("b", Value.vInt 3)]]

/-- A float16 column `[2.5, 0.5, 1.5]` (all exactly representable),
used to exercise `find_min`. -/
def rowsF : List Row :=
  [[("x", Value.vFloat (Rat.divInt 5 2))],
   [("x", Value.vFloat (Rat.divInt 1 2))],
   [("x", Value.vFloat (Rat.divInt 3 2))]]

/-- The container `rowsF` encodes to. -/
def rowsFB : List ℕ := (encode_to_bytes id id rowsF).getD []

/-- The loaded `JONXFile` for `rowsFB`. -/
def jfF : JONXFile := (jonxLoad rowsFB).getD ⟨[], [], [], []⟩

/-- The decompressed `"x"` column of `jfF`. -/
def colF : List Value := (get_column jfF "x").getD []

/-- The encoder's intermediate parts for `rowsA`. -/
def partsA : Parts := (encodeParts id id rowsA).getD ⟨[], [], [], [], []⟩

/-- The encoder's intermediate parts for `rowsF`. -/
def partsF : Parts := (encodeParts id id rowsF).getD ⟨[], [], [], [], []⟩

/-- A well-formed container whose schema has no fields (what `[{}]`
encodes to): header, compressed empty schema, no columns, no indexes. -/
def emptyFieldsB : List ℕ :=
  MAGIC ++ toLE4 1 ++ toLE4 (zc (dumpSchema [] [])).length ++
    zc (dumpSchema [] []) ++ toLE4 0

/-- A hand-built container whose schema declares two int16 columns but
whose first column blob holds one value and second blob two values. -/
def craftedB4 : List ℕ :=
  MAGIC ++ toLE4 1 ++
    (toLE4 (zc (dumpSchema ["a", "b"] [("a", JType.int16), ("b", JType.int16)])).length ++
      zc (dumpSchema ["a", "b"] [("a", JType.int16), ("b", JType.int16)])) ++
    (toLE4 (zc (i16Bytes 1)).length ++ zc (i16Bytes 1)) ++
    (toLE4 (zc (i16Bytes 2 ++ i16Bytes 3)).length ++ zc (i16Bytes 2 ++ i16Bytes 3)) ++
    toLE4 0

/-! Sanity examples for the end-to-end pipeline (spec §8 Scenario 1). -/

/-! ## Round-trip lemmas for the primitive serializers -/

theorem toLE4_length (n : ℕ) : (toLE4 n).length = 4 := rfl

theorem fromLE4_toLE4 {n : ℕ} (h : n < 2 ^ 32) : fromLE4 (toLE4 n) = n := by
  simp only [toLE4, fromLE4]
  omega

theorem takeN_of_append {k : ℕ} {l r : List ℕ} (h : l.length = k) :
    takeN k (l ++ r) = some (l, r) := by
  subst h
  simp [takeN, List.take_left, List.drop_left]

theorem zd_zc {b : List ℕ} (h : b.length < 2 ^ 32) : zd (zc b) = some b := by
  simp only [zc, zd]
  rw [takeN_of_append (toLE4_length _)]
  simp [fromLE4_toLE4 h]

theorem ofDigits256_digits256Aux :
    ∀ fuel n : ℕ, n ≤ fuel → ofDigits256 (digits256Aux fuel n) = n
  | 0, n, h => by
    simp only [digits256Aux, ofDigits256]
    omega
  | fuel + 1, n, h => by
    by_cases h0 : n = 0
    · simp [digits256Aux, h0, ofDigits256]
    · have hlt : n / 256 ≤ fuel := by
        have := Nat.div_lt_self (Nat.pos_of_ne_zero h0) (by norm_num : (1 : ℕ) < 256)
        omega
      simp only [digits256Aux, h0, if_false, ofDigits256]
      rw [ofDigits256_digits256Aux fuel (n / 256) hlt]
      omega

theorem readNatB_natBytes (n : ℕ) (r : List ℕ) :
    readNatB (natBytes n ++ r) = some (n, r) := by
  simp only [natBytes, List.cons_append, readNatB]
  rw [takeN_of_append rfl]
  simp [natDigits, ofDigits256_digits256Aux n n le_rfl]

theorem natBytes_ne_nil (n : ℕ) : natBytes n ≠ [] := by
  simp [natBytes]

theorem readIntB_intBytes (z : ℤ) (r : List ℕ) :
    readIntB (intBytes z ++ r) = some (z, r) := by
  simp only [intBytes, List.cons_append, readIntB]
  rw [readNatB_natBytes]
  by_cases hz : z < 0
  · simp only [hz, if_true, Option.map_some']
    simp only [Option.some.injEq, Prod.mk.injEq, and_true]
    omega
  · simp only [hz, if_false, Option.map_some']
    simp only [Option.some.injEq, Prod.mk.injEq, and_true]
    norm_num
    omega

theorem readRatB_ratBytes (q : ℚ) (r : List ℕ) :
    readRatB (ratBytes q ++ r) = some (q, r) := by
  simp only [ratBytes, List.append_assoc, readRatB]
  rw [readIntB_intBytes]
  simp only [Option.bind_eq_bind, Option.some_bind]
  rw [readNatB_natBytes]
  simp [Rat.num_divInt_den]

theorem char_ofNat_toNat (c : Char) : Char.ofNat c.toNat = c :=
  Char.ofNat_toNat c

theorem string_length_data (s : String) : s.length = s.data.length := rfl

theorem readStrB_strBytes (s : String) (r : List ℕ) :
    readStrB (strBytes s ++ r) = some (s, r) := by
  simp only [strBytes, List.append_assoc, readStrB]
  rw [readNatB_natBytes]
  simp only [Option.bind_eq_bind, Option.some_bind]
  rw [takeN_of_append (by rw [List.length_map]; exact (string_length_data s).symm)]
  simp only [Option.bind_eq_bind, Option.some_bind]
  congr 1
  congr 1
  rw [List.map_map]
  conv_rhs => rw [show s = String.mk s.data from rfl]
  congr 1
  rw [show (Char.ofNat ∘ Char.toNat) = id from funext char_ofNat_toNat]
  simp

theorem readValueB_dumpValue (v : Value) (r : List ℕ) :
    readValueB (dumpValue v ++ r) = some (v, r) := by
  cases v with
  | vNull => rfl
  | vBool b =>
    cases b <;> rfl
  | vInt n =>
    simp only [dumpValue, List.cons_append, readValueB]
    rw [readIntB_intBytes]
    rfl
  | vFloat q =>
    simp only [dumpValue, List.cons_append, readValueB]
    rw [readRatB_ratBytes]
    rfl
  | vStr s =>
    simp only [dumpValue, List.cons_append, readValueB]
    rw [readStrB_strBytes]
    rfl

theorem parseValuesAux_dumpValueList :
    ∀ (vs : List Value) (r : List ℕ),
      parseValuesAux vs.length (dumpValueList vs ++ r) = some (vs, r)
  | [], r => rfl
  | v :: vs, r => by
    simp only [dumpValueList, List.length_cons, List.append_assoc, parseValuesAux]
    rw [readValueB_dumpValue]
    simp only [Option.bind_eq_bind, Option.some_bind]
    rw [parseValuesAux_dumpValueList vs r]
    rfl

theorem parseValues_dumpValues (vs : List Value) :
    parseValues (dumpValues vs) = some vs := by
  simp only [dumpValues, parseValues]
  rw [readNatB_natBytes]
  simp only [Option.bind_eq_bind, Option.some_bind]
  have := parseValuesAux_dumpValueList vs []
  rw [List.append_nil] at this
  rw [this]
  rfl

theorem parseNatsAux_dumpNatList :
    ∀ (ns : List ℕ) (r : List ℕ),
      parseNatsAux ns.length (dumpNatList ns ++ r) = some (ns, r)
  | [], r => rfl
  | n :: ns, r => by
    simp only [dumpNatList, List.length_cons, List.append_assoc, parseNatsAux]
    rw [readNatB_natBytes]
    simp only [Option.bind_eq_bind, Option.some_bind]
    rw [parseNatsAux_dumpNatList ns r]
    rfl

theorem parseNats_dumpNats (ns : List ℕ) : parseNats (dumpNats ns) = some ns := by
  simp only [dumpNats, parseNats]
  rw [readNatB_natBytes]
  simp only [Option.bind_eq_bind, Option.some_bind]
  have := parseNatsAux_dumpNatList ns []
  rw [List.append_nil] at this
  rw [this]
  rfl

theorem parseStrsAux_dumpStrList :
    ∀ (ss : List String) (r : List ℕ),
      parseStrsAux ss.length (dumpStrList ss ++ r) = some (ss, r)
  | [], r => rfl
  | s :: ss, r => by
    simp only [dumpStrList, List.length_cons, List.append_assoc, parseStrsAux]
    rw [readStrB_strBytes]
    simp only [Option.bind_eq_bind, Option.some_bind]
    rw [parseStrsAux_dumpStrList ss r]
    rfl

theorem typeOfTag_typeTag (t : JType) : typeOfTag (typeTag t) = some t := by
  cases t <;> rfl

theorem parseTypesAux_dumpTypeList :
    ∀ (ts : List (String × JType)) (r : List ℕ),
      parseTypesAux ts.length (dumpTypeList ts ++ r) = some (ts, r)
  | [], r => rfl
  | (f, t) :: ts, r => by
    simp only [dumpTypeList, List.length_cons, List.append_assoc, parseTypesAux]
    rw [readStrB_strBytes]
    simp only [Option.bind_eq_bind, Option.some_bind, List.cons_append]
    rw [typeOfTag_typeTag]
    simp only [Option.bind_eq_bind, Option.some_bind]
    rw [parseTypesAux_dumpTypeList ts r]
    rfl

theorem parseSchema_dumpSchema (fields : List String) (types : List (String × JType)) :
    parseSchema (dumpSchema fields types) = some (fields, types) := by
  simp only [dumpSchema, parseSchema, List.append_assoc]
  rw [readNatB_natBytes]
  simp only [Option.bind_eq_bind, Option.some_bind]
  rw [parseStrsAux_dumpStrList]
  simp only [Option.bind_eq_bind, Option.some_bind]
  rw [readNatB_natBytes]
  simp only [Option.bind_eq_bind, Option.some_bind]
  have := parseTypesAux_dumpTypeList types []
  rw [List.append_nil] at this
  rw [this]
  rfl

/-! ## `mapM` over `Option`: basic characterizations -/

theorem mapM_option_eq_some {α β : Type} {f : α → Option β} :
    ∀ {l : List α} {l2 : List β},
      l.mapM f = some l2 ↔ List.Forall₂ (fun a b => f a = some b) l l2 := by
  intro l
  induction l with
  | nil =>
    intro l2
    constructor
    · intro h
      simp only [List.mapM_nil, pure, Option.some.injEq] at h
      subst h
      exact List.Forall₂.nil
    · intro h
      cases h
      rfl
  | cons a l ih =>
    intro l2
    constructor
    · intro h
      rw [List.mapM_cons] at h
      cases hfa : f a with
      | none => rw [hfa] at h; simp at h
      | some b =>
        rw [hfa] at h
        cases hml : l.mapM f with
        | none => rw [hml] at h; simp at h
        | some bs =>
          rw [hml] at h
          simp only [Option.bind_eq_bind, Option.some_bind, pure, Option.some.injEq] at h
          subst h
          exact List.Forall₂.cons hfa (ih.mp hml)
    · intro h
      cases h with
      | cons hfa hrest =>
        rw [List.mapM_cons, hfa]
        rw [ih.mpr hrest]
        rfl

theorem mapM_option_none_of_mem {α β : Type} {f : α → Option β} {l : List α} {a : α}
    (ha : a ∈ l) (hf : f a = none) : l.mapM f = none := by
  induction l with
  | nil => cases ha
  | cons x l ih =>
    rw [List.mapM_cons]
    rcases List.mem_cons.mp ha with h | h
    · subst h
      rw [hf]
      rfl
    · cases hfx : f x with
      | none => rfl
      | some b =>
        rw [ih h]
        rfl

theorem mapM_option_length {α β : Type} {f : α → Option β} {l : List α} {l2 : List β}
    (h : l.mapM f = some l2) : l2.length = l.length :=
  (List.Forall₂.length_eq (mapM_option_eq_some.mp h)).symm

/-! ## Pack/unpack round-trips under the lossless-fit hypothesis -/

theorem unpackI16_i16Bytes_cons (z : ℤ) (rest : List ℕ)
    (h1 : -32768 ≤ z) (h2 : z < 32768) :
    unpackI16 (i16Bytes z ++ rest) = (unpackI16 rest).map (z :: ·) := by
  simp only [i16Bytes, List.cons_append, List.nil_append, unpackI16]
  have hd : decI16 ((z % 65536).toNat % 256) ((z % 65536).toNat / 256) = z := by
    simp only [decI16]
    omega
  rw [hd]
  rfl

theorem unpackI32_i32Bytes_cons (z : ℤ) (rest : List ℕ)
    (h1 : -(2 ^ 31) ≤ z) (h2 : z < 2 ^ 31) :
    unpackI32 (i32Bytes z ++ rest) = (unpackI32 rest).map (z :: ·) := by
  simp only [i32Bytes, List.cons_append, List.nil_append, unpackI32]
  have hd : decI32 ((z % 2 ^ 32).toNat % 256) ((z % 2 ^ 32).toNat / 256 % 256)
      ((z % 2 ^ 32).toNat / 256 ^ 2 % 256) ((z % 2 ^ 32).toNat / 256 ^ 3 % 256) = z := by
    simp only [decI32]
    omega
  rw [hd]
  rfl

theorem ratBytes_ne_nil (q : ℚ) : ratBytes q ≠ [] := by
  simp [ratBytes, intBytes]

theorem parseRatsAux_cat :
    ∀ (qs : List ℚ) (fuel : ℕ), (catList (qs.map ratBytes)).length ≤ fuel →
      parseRatsAux fuel (catList (qs.map ratBytes)) = some qs
  | [], fuel, _ => by cases fuel <;> rfl
  | q :: qs, fuel, h => by
    have hne : ratBytes q ++ catList (qs.map ratBytes) ≠ [] := by
      intro hcontra
      exact ratBytes_ne_nil q (List.append_eq_nil.mp hcontra).1
    have hlen : 1 ≤ (ratBytes q).length := by
      cases hrb : ratBytes q with
      | nil => exact absurd hrb (ratBytes_ne_nil q)
      | cons x xs => simp
    cases fuel with
    | zero =>
      exfalso
      simp only [List.map_cons, catList, List.length_append] at h
      omega
    | succ f =>
      simp only [List.map_cons, catList, parseRatsAux, hne, if_false]
      rw [readRatB_ratBytes]
      simp only [Option.bind_eq_bind, Option.some_bind]
      rw [parseRatsAux_cat qs f (by
        simp only [List.map_cons, catList, List.length_append] at h
        omega)]
      rfl

theorem parseRats_cat (qs : List ℚ) :
    parseRats (catList (qs.map ratBytes)) = some qs :=
  parseRatsAux_cat qs _ le_rfl

/-- Under the lossless-fit hypothesis, unpacking a packed column
returns exactly the original values. -/
theorem unpack_pack {f16 f32 : ℚ → ℚ} {col : List Value} {t : JType} {p : List ℕ}
    (hfit : ∀ v ∈ col, fitsB f16 f32 v t = true)
    (hp : pack_column f16 f32 col t = some p) :
    unpack_column t p = some col := by
  cases t with
  | int16 =>
    simp only [pack_column, Option.map_eq_some'] at hp
    obtain ⟨zs, hzs, rfl⟩ := hp
    have hall := mapM_option_eq_some.mp hzs
    simp only [unpack_column]
    clear hzs
    induction hall with
    | nil => rfl
    | cons hfa hrest ih =>
      rename_i v z col2 zs2
      have hv := hfit v (List.mem_cons_self ..)
      simp only [fitsB] at hv
      cases v with
      | vInt n =>
        simp only [toI16] at hfa
        simp only [decide_eq_true_eq] at hv
        rw [if_pos hv] at hfa
        have hz : z = n := by simpa using hfa.symm
        subst hz
        have ih2 := ih (fun v hv2 => hfit v (List.mem_cons_of_mem _ hv2))
        cases hX : unpackI16 (catList (List.map i16Bytes zs2)) with
        | none => rw [hX] at ih2; simp at ih2
        | some ys =>
          rw [hX] at ih2
          simp only [Option.map_some', Option.some.injEq] at ih2
          simp only [List.map_cons, catList]
          rw [unpackI16_i16Bytes_cons z _ hv.1 hv.2, hX]
          simp only [Option.map_some', Option.some.injEq, List.map_cons]
          rw [ih2]
      | vNull => simp at hv
      | vBool b => simp at hv
      | vFloat q => simp at hv
      | vStr s => simp at hv
  | int32 =>
    simp only [pack_column, Option.map_eq_some'] at hp
    obtain ⟨zs, hzs, rfl⟩ := hp
    have hall := mapM_option_eq_some.mp hzs
    simp only [unpack_column]
    clear hzs
    induction hall with
    | nil => rfl
    | cons hfa hrest ih =>
      rename_i v z col2 zs2
      have hv := hfit v (List.mem_cons_self ..)
      simp only [fitsB] at hv
      cases v with
      | vInt n =>
        simp only [toI32] at hfa
        simp only [decide_eq_true_eq] at hv
        rw [if_pos hv] at hfa
        have hz : z = n := by simpa using hfa.symm
        subst hz
        have ih2 := ih (fun v hv2 => hfit v (List.mem_cons_of_mem _ hv2))
        cases hX : unpackI32 (catList (List.map i32Bytes zs2)) with
        | none => rw [hX] at ih2; simp at ih2
        | some ys =>
          rw [hX] at ih2
          simp only [Option.map_some', Option.some.injEq] at ih2
          simp only [List.map_cons, catList]
          rw [unpackI32_i32Bytes_cons z _ hv.1 hv.2, hX]
          simp only [Option.map_some', Option.some.injEq, List.map_cons]
          rw [ih2]
      | vNull => simp at hv
      | vBool b => simp at hv
      | vFloat q => simp at hv
      | vStr s => simp at hv
  | float16 =>
    simp only [pack_column, Option.map_eq_some'] at hp
    obtain ⟨qs, hqs, rfl⟩ := hp
    have hall := mapM_option_eq_some.mp hqs
    simp only [unpack_column]
    rw [show qs.map (fun q => ratBytes (f16 q)) = (qs.map f16).map ratBytes by
      rw [List.map_map]; rfl]
    rw [parseRats_cat]
    simp only [Option.map_some', Option.some.injEq]
    clear hqs
    induction hall with
    | nil => rfl
    | cons hfa hrest ih =>
      rename_i v q col2 qs2
      have hv := hfit v (List.mem_cons_self ..)
      simp only [fitsB] at hv
      cases v with
      | vFloat q2 =>
        simp only [numToRat, Option.some.injEq] at hfa
        subst hfa
        simp only [decide_eq_true_eq] at hv
        simp only [List.map_cons, List.cons.injEq]
        refine ⟨by rw [hv], ?_⟩
        exact ih (fun v hv2 => hfit v (List.mem_cons_of_mem _ hv2))
      | vNull => simp at hv
      | vBool b => simp at hv
      | vInt n => simp at hv
      | vStr s => simp at hv
  | float32 =>
    simp only [pack_column, Option.map_eq_some'] at hp
    obtain ⟨qs, hqs, rfl⟩ := hp
    have hall := mapM_option_eq_some.mp hqs
    simp only [unpack_column]
    rw [show qs.map (fun q => ratBytes (f32 q)) = (qs.map f32).map ratBytes by
      rw [List.map_map]; rfl]
    rw [parseRats_cat]
    simp only [Option.map_some', Option.some.injEq]
    clear hqs
    induction hall with
    | nil => rfl
    | cons hfa hrest ih =>
      rename_i v q col2 qs2
      have hv := hfit v (List.mem_cons_self ..)
      simp only [fitsB] at hv
      cases v with
      | vFloat q2 =>
        simp only [numToRat, Option.some.injEq] at hfa
        subst hfa
        simp only [decide_eq_true_eq] at hv
        simp only [List.map_cons, List.cons.injEq]
        refine ⟨by rw [hv], ?_⟩
        exact ih (fun v hv2 => hfit v (List.mem_cons_of_mem _ hv2))
      | vNull => simp at hv
      | vBool b => simp at hv
      | vInt n => simp at hv
      | vStr s => simp at hv
  | bool =>
    simp only [pack_column, Option.some.injEq] at hp
    subst hp
    simp only [unpack_column, Option.some.injEq, List.map_map]
    induction col with
    | nil => rfl
    | cons v col2 ih =>
      rw [List.map_cons]
      have hv := hfit v (List.mem_cons_self ..)
      rw [ih (fun v hv2 => hfit v (List.mem_cons_of_mem _ hv2))]
      simp only [fitsB] at hv
      cases v with
      | vBool b =>
        cases b <;> rfl
      | vNull => simp at hv
      | vInt n => simp at hv
      | vFloat q => simp at hv
      | vStr s => simp at hv
  | str =>
    simp only [pack_column, Option.some.injEq] at hp
    subst hp
    simpa [unpack_column] using parseValues_dumpValues col
  | json =>
    simp only [pack_column, Option.some.injEq] at hp
    subst hp
    simpa [unpack_column] using parseValues_dumpValues col

/-! ## Association-list and zip lookup facts -/

theorem lookup_eq_some_of_mem_nodup {β : Type} :
    ∀ {r : List (String × β)} {k : String} {v : β},
      (k, v) ∈ r → (r.map Prod.fst).Nodup → r.lookup k = some v := by
  intro r
  induction r with
  | nil => intro k v h; cases h
  | cons p r ih =>
    intro k v h hnd
    rcases p with ⟨k2, v2⟩
    rcases List.mem_cons.mp h with h1 | h1
    · cases h1
      simp [List.lookup]
    · have hk : k ∈ r.map Prod.fst := List.mem_map.mpr ⟨(k, v), h1, rfl⟩
      have hne : k ≠ k2 := by
        intro hcontra
        rw [List.map_cons, List.nodup_cons] at hnd
        exact hnd.1 (hcontra ▸ hk)
      simp only [List.lookup]
      rw [show (k == k2) = false from beq_eq_false_iff_ne.mpr hne]
      exact ih h1 (by
        rw [List.map_cons, List.nodup_cons] at hnd
        exact hnd.2)

theorem mem_of_lookup_eq_some {β : Type} :
    ∀ {r : List (String × β)} {k : String} {v : β},
      r.lookup k = some v → (k, v) ∈ r := by
  intro r
  induction r with
  | nil => intro k v h; cases h
  | cons p r ih =>
    intro k v h
    rcases p with ⟨k2, v2⟩
    simp only [List.lookup] at h
    by_cases he : k = k2
    · rw [show (k == k2) = true from by rw [he]; exact beq_self_eq_true k2] at h
      cases h
      rw [he]
      exact List.mem_cons_self ..
    · rw [show (k == k2) = false from beq_eq_false_iff_ne.mpr he] at h
      exact List.mem_cons_of_mem _ (ih h)

theorem map_fst_zip_sublist {β : Type} :
    ∀ (fs : List String) (vs : List β), ((fs.zip vs).map Prod.fst).Sublist fs
  | [], _ => by simp
  | _ :: _, [] => by simp
  | f :: fs, v :: vs => by
    simp only [List.zip_cons_cons, List.map_cons]
    exact (map_fst_zip_sublist fs vs).cons₂ f

theorem lookup_mem_zip {β : Type} (fs : List String) (vs : List β) (p : String × β)
    (hnd : fs.Nodup) (hp : p ∈ fs.zip vs) : (fs.zip vs).lookup p.1 = some p.2 := by
  apply lookup_eq_some_of_mem_nodup hp
  exact hnd.sublist (map_fst_zip_sublist fs vs)

theorem forall₂_of_zip {α β : Type} {R : α → β → Prop} :
    ∀ (fs : List α) (vs : List β), fs.length = vs.length →
      (∀ p ∈ fs.zip vs, R p.1 p.2) → List.Forall₂ R fs vs := by
  intro fs
  induction fs with
  | nil =>
    intro vs hlen _
    cases vs with
    | nil => exact List.Forall₂.nil
    | cons v vs => simp at hlen
  | cons f fs ih =>
    intro vs hlen h
    cases vs with
    | nil => simp at hlen
    | cons v vs =>
      refine List.Forall₂.cons (h (f, v) (by simp [List.zip])) ?_
      exact ih vs (by simpa using hlen) (fun p hp => h p (by simp [List.zip]; right; exact hp))


/-! ## Parsing an assembled container -/

theorem drop_len_append {α : Type} {l r : List α} {n : ℕ} (h : l.length = n) :
    (l ++ r).drop n = r := by
  subst h
  exact List.drop_left l r

theorem take_len_append {α : Type} {l r : List α} {n : ℕ} (h : l.length = n) :
    (l ++ r).take n = l := by
  subst h
  exact List.take_left l r

theorem readHeader_build (r : List ℕ) :
    readHeader (MAGIC ++ (toLE4 1 ++ r)) = some (1, r) := by
  show readHeader (74 :: 79 :: 78 :: 88 :: (toLE4 1 ++ r)) = some (1, r)
  simp only [readHeader]
  rw [if_pos (by rfl)]
  rw [show (74 :: 79 :: 78 :: 88 :: (toLE4 1 ++ r)).drop 4 = toLE4 1 ++ r from rfl]
  rw [takeN_of_append (toLE4_length 1)]
  rfl

theorem readBlock_build {c : List ℕ} (h : c.length < 2 ^ 32) (r : List ℕ) :
    readBlock (toLE4 c.length ++ (c ++ r)) = some (c, r) := by
  simp only [readBlock]
  rw [takeN_of_append (toLE4_length _)]
  simp only [Option.bind_eq_bind, Option.some_bind]
  rw [fromLE4_toLE4 h, takeN_of_append rfl]

theorem readCols_build (typesAll : List (String × JType)) :
    ∀ {fs : List String} {bc : List (List ℕ × List Value)},
      List.Forall₂ (fun f p => ∃ c,
        p.1 = toLE4 c.length ++ c ∧ c.length < 2 ^ 32 ∧
        ∃ t, typesAll.lookup f = some t ∧
          ∃ packed, zd c = some packed ∧ unpack_column t packed = some p.2) fs bc →
      ∀ rest,
        readCols typesAll fs (catList (bc.map Prod.fst) ++ rest) =
          some (fs.zip (bc.map Prod.snd), rest) := by
  intro fs bc h
  induction h with
  | nil => intro rest; simp [readCols, catList]
  | cons hf hrest ih =>
    rename_i f p fs2 bc2
    intro rest
    obtain ⟨c, hp1, hlen, t, hlook, packed, hzd, hunp⟩ := hf
    simp only [List.map_cons, catList, readCols]
    rw [hp1]
    simp only [List.append_assoc]
    rw [readBlock_build hlen]
    simp only [Option.bind_eq_bind, Option.some_bind]
    rw [hzd]
    simp only [Option.some_bind]
    rw [hlook]
    simp only [Option.some_bind]
    rw [hunp]
    simp only [Option.some_bind]
    rw [ih rest]
    rfl

theorem skipIndexes_build :
    ∀ {entries : List (String × List ℕ)} {blocks : List (List ℕ)},
      List.Forall₂ (fun fi blk =>
        fi.1.length < 2 ^ 32 ∧ fi.2.length < 2 ^ 32 ∧
          blk = toLE4 fi.1.length ++ (fi.1.data.map Char.toNat ++
            (toLE4 fi.2.length ++ fi.2))) entries blocks →
      ∀ rest, skipIndexes entries.length (catList blocks ++ rest) = some rest := by
  intro entries blocks h
  induction h with
  | nil => intro rest; simp [skipIndexes, catList]
  | cons hf hrest ih =>
    rename_i fi blk entries2 blocks2
    intro rest
    obtain ⟨hn, hb, hblk⟩ := hf
    simp only [List.length_cons, catList, skipIndexes]
    rw [hblk]
    simp only [List.append_assoc]
    rw [takeN_of_append (toLE4_length _)]
    simp only [Option.bind_eq_bind, Option.some_bind]
    rw [fromLE4_toLE4 hn]
    rw [drop_len_append (by rw [List.length_map]; exact (string_length_data fi.1).symm)]
    rw [takeN_of_append (toLE4_length _)]
    simp only [Option.some_bind]
    rw [fromLE4_toLE4 hb]
    rw [drop_len_append rfl]
    exact ih rest

/-! ## Helpers for reconstruction -/

theorem get?_eq_some_getD {α : Type} {l : List α} {i : ℕ} (h : i < l.length) (d : α) :
    l.get? i = some (l.getD i d) := by
  cases hg : l.get? i with
  | none =>
    exact absurd (List.get?_eq_none.mp hg) (by omega)
  | some x =>
    rw [List.getD_eq_getElem?_getD, ← List.get?_eq_getElem?, hg]
    rfl

theorem mapM_option_of_all_some {α β : Type} {f : α → Option β} {g : α → β} :
    ∀ {l : List α}, (∀ a ∈ l, f a = some (g a)) → l.mapM f = some (l.map g) := by
  intro l
  induction l with
  | nil => intro _; rfl
  | cons a l ih =>
    intro h
    rw [List.mapM_cons, h a (List.mem_cons_self ..), ih (fun x hx => h x (List.mem_cons_of_mem _ hx))]
    rfl

theorem forall₂_mem_left {α β : Type} {R : α → β → Prop} :
    ∀ {l1 : List α} {l2 : List β}, List.Forall₂ R l1 l2 →
      ∀ {a}, a ∈ l1 → ∃ b, (a, b) ∈ l1.zip l2 ∧ R a b := by
  intro l1 l2 h
  induction h with
  | nil => intro a ha; cases ha
  | cons hf hrest ih =>
    rename_i x y xs ys
    intro a ha
    rcases List.mem_cons.mp ha with h1 | h1
    · subst h1
      exact ⟨y, List.mem_cons_self .., hf⟩
    · obtain ⟨b, hb1, hb2⟩ := ih h1
      exact ⟨b, List.mem_cons_of_mem _ hb1, hb2⟩

theorem readCols_encode (f16 f32 : ℚ → ℚ) (typesAll : List (String × JType)) :
    ∀ (fs : List String) (cols : List (List Value)) (ts : List JType)
      (comp blocks : List (List ℕ)) (rest : List ℕ),
      List.Forall₂ (fun f t => typesAll.lookup f = some t) fs ts →
      fs.length = cols.length →
      List.Forall₂ (fun ct c => (pack_column f16 f32 ct.1 ct.2).map zc = some c)
        (cols.zip ts) comp →
      List.Forall₂ (fun c blk => c.length < 2 ^ 32 ∧ blk = toLE4 c.length ++ c) comp blocks →
      (∀ p ∈ cols.zip ts, ∀ v ∈ p.1, fitsB f16 f32 v p.2 = true) →
      readCols typesAll fs (catList blocks ++ rest) = some (fs.zip cols, rest) := by
  intro fs
  induction fs with
  | nil =>
    intro cols ts comp blocks rest h1 h2 h3 h4 h5
    have hc : cols = [] := List.length_eq_zero.mp h2.symm
    subst hc
    cases h1
    cases h3
    cases h4
    simp [readCols, catList]
  | cons f fs2 ih =>
    intro cols ts comp blocks rest h1 h2 h3 h4 h5
    cases h1 with
    | cons hft h1rest =>
      rename_i t ts2
      cases cols with
      | nil => simp at h2
      | cons col cols2 =>
        rw [show (col :: cols2).zip (t :: ts2) = (col, t) :: cols2.zip ts2 from rfl] at h3 h5
        cases h3 with
        | cons hc h3rest =>
          rename_i cblob comp2
          cases h4 with
          | cons hb h4rest =>
            rename_i blk blocks2
            obtain ⟨hlen, hblk⟩ := hb
            obtain ⟨pb, hpack, hcb⟩ := Option.map_eq_some'.mp hc
            simp only [catList, readCols]
            rw [hblk]
            simp only [List.append_assoc]
            rw [readBlock_build hlen]
            simp only [Option.bind_eq_bind, Option.some_bind]
            rw [← hcb]
            have hpblen : pb.length < 2 ^ 32 := by
              rw [← hcb, zc, List.length_append, toLE4_length] at hlen
              omega
            rw [zd_zc hpblen]
            simp only [Option.some_bind]
            rw [hft]
            simp only [Option.some_bind]
            rw [unpack_pack (fun v hv => h5 (col, t) (List.mem_cons_self ..) v hv) hpack]
            simp only [Option.some_bind]
            rw [ih cols2 ts2 comp2 blocks2 rest h1rest (by simpa using h2) h3rest h4rest
              (fun p hp v hv => h5 p (List.mem_cons_of_mem _ hp) v hv)]
            rfl

theorem row_build (big : List (String × List Value)) (i : ℕ) :
    ∀ {fs : List String} {cols : List (List Value)},
      List.Forall₂ (fun f c => big.lookup f = some c) fs cols →
      (∀ c ∈ cols, i < c.length) →
      fs.mapM (fun f =>
        (big.lookup f).bind fun col => (col.get? i).bind fun v => pure (f, v)) =
        some ((fs.zip cols).map (fun p => (p.1, p.2.getD i Value.vNull))) := by
  intro fs cols h
  induction h with
  | nil => intro _; rfl
  | cons hf hrest ih =>
    rename_i f col fs2 cols2
    intro hlen
    have ih2 := ih (fun c hc => hlen c (List.mem_cons_of_mem _ hc))
    rw [List.mapM_cons, ih2, hf]
    simp only [Option.some_bind]
    rw [get?_eq_some_getD (hlen col (List.mem_cons_self ..)) Value.vNull]
    rfl

theorem reconstruct_build (version : ℕ) {fs : List String} {cols : List (List Value)}
    (types : List (String × JType)) {n : ℕ}
    (hne : fs ≠ [])
    (hF : List.Forall₂ (fun f c => (fs.zip cols).lookup f = some c) fs cols)
    (hlen : ∀ c ∈ cols, c.length = n) :
    reconstruct version fs types (fs.zip cols) =
      some ⟨version, fs, types, n,
        (List.range n).map (fun i =>
          (fs.zip cols).map (fun p => (p.1, p.2.getD i Value.vNull)))⟩ := by
  cases fs with
  | nil => exact absurd rfl hne
  | cons f0 fs2 =>
    cases hF with
    | cons hf0 hFrest =>
      rename_i col0 cols2
      simp only [reconstruct]
      rw [hf0]
      simp only [Option.map_some', Option.bind_eq_bind, Option.some_bind]
      rw [hlen col0 (List.mem_cons_self ..)]
      rw [mapM_option_of_all_some (g := fun i =>
        ((f0 :: fs2).zip (col0 :: cols2)).map (fun p => (p.1, p.2.getD i Value.vNull)))
        (fun i hi => row_build _ i (List.Forall₂.cons hf0 hFrest)
          (fun c hc => by rw [hlen c hc]; exact List.mem_range.mp hi))]
      rfl


/-! ## Shapes of the encoder's intermediate data -/

theorem forall₂_mem_right {α β : Type} {R : α → β → Prop} :
    ∀ {l1 : List α} {l2 : List β}, List.Forall₂ R l1 l2 →
      ∀ {b}, b ∈ l2 → ∃ a, a ∈ l1 ∧ R a b := by
  intro l1 l2 h
  induction h with
  | nil => intro b hb; cases hb
  | cons hf hrest ih =>
    rename_i x y xs ys
    intro b hb
    rcases List.mem_cons.mp hb with h1 | h1
    · subst h1
      exact ⟨x, List.mem_cons_self .., hf⟩
    · obtain ⟨a, ha1, ha2⟩ := ih h1
      exact ⟨a, List.mem_cons_of_mem _ ha1, ha2⟩

theorem le4w_eq_some {n : ℕ} {l : List ℕ} (h : le4w n = some l) :
    n < 2 ^ 32 ∧ l = toLE4 n := by
  simp only [le4w] at h
  by_cases hn : n < 2 ^ 32
  · rw [if_pos hn] at h
    cases h
    exact ⟨hn, rfl⟩
  · rw [if_neg hn] at h
    cases h

theorem encodeParts_spec {f16 f32 : ℚ → ℚ} {rows : List Row} {parts : Parts}
    (h : encodeParts f16 f32 rows = some parts) :
    rows ≠ [] ∧ parts.fields = keysOf (rows.headD []) ∧
      parts.fields.mapM (fun f => rows.mapM (fun r => r.lookup f)) = some parts.columns ∧
      parts.columns.mapM detect_type = some parts.types ∧
      (parts.columns.zip parts.types).mapM
        (fun ct => (pack_column f16 f32 ct.1 ct.2).map zc) = some parts.comp ∧
      buildIndexes f16 f32 ((parts.fields.zip (parts.columns.zip parts.types)).map
        (fun x => (x.1, x.2.1, x.2.2))) = some parts.indexes := by
  cases rows with
  | nil => simp [encodeParts] at h
  | cons r0 rest =>
    simp only [encodeParts] at h
    cases hcols : (keysOf r0).mapM (fun f => (r0 :: rest).mapM (fun r => r.lookup f)) with
    | none => rw [hcols] at h; simp at h
    | some columns =>
      rw [hcols] at h
      simp only [Option.bind_eq_bind, Option.some_bind] at h
      cases htypes : columns.mapM detect_type with
      | none => rw [htypes] at h; simp at h
      | some types =>
        rw [htypes] at h
        simp only [Option.some_bind] at h
        cases hcomp : (columns.zip types).mapM
            (fun ct => (pack_column f16 f32 ct.1 ct.2).map zc) with
        | none => rw [hcomp] at h; simp at h
        | some comp =>
          rw [hcomp] at h
          simp only [Option.some_bind] at h
          cases hidx : buildIndexes f16 f32 (((keysOf r0).zip (columns.zip types)).map
              (fun x => (x.1, x.2.1, x.2.2))) with
          | none => rw [hidx] at h; simp at h
          | some indexes =>
            rw [hidx] at h
            simp only [Option.some_bind, pure, Option.some.injEq] at h
            subst h
            exact ⟨by simp, rfl, hcols, htypes, hcomp, hidx⟩

theorem assemble_spec {parts : Parts} {B : List ℕ} (h : assemble parts = some B) :
    ∃ colBlocks idxBlocks,
      (zc (dumpSchema parts.fields (parts.fields.zip parts.types))).length < 2 ^ 32 ∧
      List.Forall₂ (fun c blk => c.length < 2 ^ 32 ∧ blk = toLE4 c.length ++ c)
        parts.comp colBlocks ∧
      parts.indexes.length < 2 ^ 32 ∧
      List.Forall₂ (fun fi blk => fi.1.length < 2 ^ 32 ∧ fi.2.length < 2 ^ 32 ∧
        blk = toLE4 fi.1.length ++ (fi.1.data.map Char.toNat ++ (toLE4 fi.2.length ++ fi.2)))
        parts.indexes idxBlocks ∧
      B = MAGIC ++ (toLE4 1 ++
        (toLE4 (zc (dumpSchema parts.fields (parts.fields.zip parts.types))).length ++
          (zc (dumpSchema parts.fields (parts.fields.zip parts.types)) ++
            (catList colBlocks ++
              (toLE4 parts.indexes.length ++ catList idxBlocks))))) := by
  simp only [assemble] at h
  cases hs : le4w (zc (dumpSchema parts.fields (parts.fields.zip parts.types))).length with
  | none => rw [hs] at h; simp at h
  | some sLen =>
    rw [hs] at h
    simp only [Option.bind_eq_bind, Option.some_bind] at h
    cases hcb : parts.comp.mapM (fun c => (le4w c.length).map (· ++ c)) with
    | none => rw [hcb] at h; simp at h
    | some colBlocks =>
      rw [hcb] at h
      simp only [Option.some_bind] at h
      cases hni : le4w parts.indexes.length with
      | none => rw [hni] at h; simp at h
      | some nIdx =>
        rw [hni] at h
        simp only [Option.some_bind] at h
        cases hib : parts.indexes.mapM (fun fi =>
            (le4w fi.1.length).bind fun nl =>
              (le4w fi.2.length).bind fun bl =>
                pure (nl ++ fi.1.data.map Char.toNat ++ bl ++ fi.2)) with
        | none => rw [hib] at h; simp at h
        | some idxBlocks =>
          rw [hib] at h
          simp only [Option.some_bind, pure, Option.some.injEq] at h
          obtain ⟨hsl, hsv⟩ := le4w_eq_some hs
          obtain ⟨hnl, hnv⟩ := le4w_eq_some hni
          refine ⟨colBlocks, idxBlocks, hsl, ?_, hnl, ?_, ?_⟩
          · refine (mapM_option_eq_some.mp hcb).imp ?_
            intro c blk hcblk
            obtain ⟨l4, hl4, happ⟩ := Option.map_eq_some'.mp hcblk
            obtain ⟨hcl, hl4v⟩ := le4w_eq_some hl4
            exact ⟨hcl, by rw [← happ, hl4v]⟩
          · refine (mapM_option_eq_some.mp hib).imp ?_
            intro fi blk hblk
            cases h1 : le4w fi.1.length with
            | none => rw [h1] at hblk; simp at hblk
            | some nl =>
              rw [h1] at hblk
              simp only [Option.some_bind] at hblk
              cases h2 : le4w fi.2.length with
              | none => rw [h2] at hblk; simp at hblk
              | some bl =>
                rw [h2] at hblk
                simp only [Option.some_bind, pure, Option.some.injEq] at hblk
                obtain ⟨ha1, hav1⟩ := le4w_eq_some h1
                obtain ⟨ha2, hav2⟩ := le4w_eq_some h2
                refine ⟨ha1, ha2, ?_⟩
                rw [← hblk, hav1, hav2]
                simp [List.append_assoc]
          · rw [← h, hsv, hnv]
            simp [List.append_assoc]


/-! ## Decoding an encoded container -/

theorem decode_assemble {f16 f32 : ℚ → ℚ} {rows : List Row} {parts : Parts} {B : List ℕ}
    (hEP : encodeParts f16 f32 rows = some parts)
    (hA : assemble parts = some B)
    (hnd : parts.fields.Nodup)
    (hne : parts.fields ≠ [])
    (hfitp : ∀ p ∈ parts.columns.zip parts.types, ∀ v ∈ p.1, fitsB f16 f32 v p.2 = true) :
    decode_from_bytes B =
      some ⟨1, parts.fields, parts.fields.zip parts.types, rows.length,
        (List.range rows.length).map (fun i =>
          (parts.fields.zip parts.columns).map
            (fun p => (p.1, p.2.getD i Value.vNull)))⟩ := by
  obtain ⟨hrne, hfld, hcols, htypes, hcomp, hidx⟩ := encodeParts_spec hEP
  obtain ⟨colBlocks, idxBlocks, hsb, hFcol, hnidx, hFidx, hB⟩ := assemble_spec hA
  have hlen_fc : parts.fields.length = parts.columns.length := (mapM_option_length hcols).symm
  have hlen_ct : parts.columns.length = parts.types.length := (mapM_option_length htypes).symm
  have hcol_rows : ∀ c ∈ parts.columns, c.length = rows.length := by
    intro c hc
    obtain ⟨f, _, hfc⟩ := forall₂_mem_right (mapM_option_eq_some.mp hcols) hc
    exact mapM_option_length hfc
  have hFtypes : List.Forall₂
      (fun f t => (parts.fields.zip parts.types).lookup f = some t)
      parts.fields parts.types := by
    refine forall₂_of_zip _ _ (by omega) ?_
    intro p hp
    exact lookup_mem_zip _ _ p hnd hp
  have hpay : (dumpSchema parts.fields (parts.fields.zip parts.types)).length < 2 ^ 32 := by
    rw [zc, List.length_append, toLE4_length] at hsb
    omega
  rw [hB]
  simp only [decode_from_bytes]
  rw [readHeader_build]
  simp only [Option.bind_eq_bind, Option.some_bind]
  rw [readBlock_build hsb]
  simp only [Option.some_bind]
  rw [zd_zc hpay]
  simp only [Option.some_bind]
  rw [parseSchema_dumpSchema]
  simp only [Option.some_bind]
  rw [readCols_encode f16 f32 (parts.fields.zip parts.types) parts.fields parts.columns
    parts.types parts.comp colBlocks
    (toLE4 parts.indexes.length ++ catList idxBlocks)
    hFtypes hlen_fc (mapM_option_eq_some.mp hcomp) hFcol hfitp]
  simp only [Option.some_bind]
  rw [takeN_of_append (toLE4_length _)]
  simp only [Option.some_bind]
  rw [fromLE4_toLE4 hnidx]
  rw [show catList idxBlocks = catList idxBlocks ++ [] from (List.append_nil _).symm]
  rw [skipIndexes_build hFidx []]
  simp only [Option.some_bind]
  have hFL : List.Forall₂
      (fun f c => (parts.fields.zip parts.columns).lookup f = some c)
      parts.fields parts.columns := by
    refine forall₂_of_zip _ _ hlen_fc ?_
    intro p hp
    exact lookup_mem_zip _ _ p hnd hp
  exact reconstruct_build 1 (parts.fields.zip parts.types) hne hFL hcol_rows


/-! ## Python equality of the reconstructed records -/

theorem pyEqRow_build {fs : List String} {cols : List (List Value)} {row : Row} {i : ℕ}
    (hndf : fs.Nodup)
    (hndr : (keysOf row).Nodup)
    (hF : List.Forall₂ (fun f c => row.lookup f = some (c.getD i Value.vNull)) fs cols)
    (hkeys : ∀ k ∈ keysOf row, k ∈ fs) :
    pyEqRow ((fs.zip cols).map (fun p => (p.1, p.2.getD i Value.vNull))) row = true := by
  rw [pyEqRow, Bool.and_eq_true]
  constructor
  · rw [List.all_eq_true]
    intro kv hkv
    obtain ⟨p, hp, hpe⟩ := List.mem_map.mp hkv
    rcases p with ⟨f, c⟩
    have hR := List.forall₂_zip hF hp
    subst hpe
    simpa using hR
  · rw [List.all_eq_true]
    intro kv hkv
    rcases kv with ⟨k, v⟩
    have hklookup : row.lookup k = some v := lookup_eq_some_of_mem_nodup hkv hndr
    have hkfs : k ∈ fs := hkeys k (List.mem_map.mpr ⟨(k, v), hkv, rfl⟩)
    obtain ⟨c, hpzip, hR⟩ := forall₂_mem_left hF hkfs
    have hv : v = c.getD i Value.vNull := by
      rw [hklookup] at hR
      exact (Option.some.injEq ..).mp hR
    have hmm : (k, c.getD i Value.vNull) ∈
        (fs.zip cols).map (fun p => (p.1, p.2.getD i Value.vNull)) :=
      List.mem_map.mpr ⟨(k, c), hpzip, rfl⟩
    have hndm : (((fs.zip cols).map
        (fun p => (p.1, p.2.getD i Value.vNull))).map Prod.fst).Nodup := by
      rw [List.map_map]
      rw [show (Prod.fst ∘ fun p : String × List Value =>
        (p.1, p.2.getD i Value.vNull)) = Prod.fst from rfl]
      exact hndf.sublist (map_fst_zip_sublist fs cols)
    simp only [decide_eq_true_eq]
    rw [hv]
    exact lookup_eq_some_of_mem_nodup hmm hndm

theorem pyEqRows_of_index :
    ∀ {out rows : List Row}, out.length = rows.length →
      (∀ i, i < rows.length → pyEqRow (out.getD i []) (rows.getD i []) = true) →
      pyEqRows out rows = true := by
  intro out
  induction out with
  | nil =>
    intro rows hlen _
    cases rows with
    | nil => rfl
    | cons r rows2 => simp at hlen
  | cons o out ih =>
    intro rows hlen h
    cases rows with
    | nil => simp at hlen
    | cons r rows2 =>
      have htail := ih (by simpa using hlen) (fun i hi => h (i + 1) (by simpa using hi))
      rw [pyEqRows, Bool.and_eq_true] at htail
      rw [pyEqRows, Bool.and_eq_true]
      refine ⟨by simpa using hlen, ?_⟩
      rw [show (o :: out).zip (r :: rows2) = (o, r) :: out.zip rows2 from rfl,
        List.all_cons, Bool.and_eq_true]
      exact ⟨by simpa using h 0 (by simp), htail.2⟩

theorem getD_eq_get {α : Type} {l : List α} {i : ℕ} (h : i < l.length) (d : α) :
    l.getD i d = l.get ⟨i, h⟩ := by
  have h1 := get?_eq_some_getD h d
  rw [List.get?_eq_get h] at h1
  exact ((Option.some.injEq ..).mp h1).symm

/-- From the encoder's column-building equation, every record agrees
with the reconstructed row at its index. -/
theorem rowF_build {rows : List Row} {fields : List String} {cols : List (List Value)}
    (hcols : fields.mapM (fun f => rows.mapM (fun r => r.lookup f)) = some cols)
    {i : ℕ} (hi : i < rows.length) :
    List.Forall₂ (fun f c => (rows.getD i []).lookup f = some (c.getD i Value.vNull))
      fields cols := by
  refine (mapM_option_eq_some.mp hcols).imp ?_
  intro f c hfc
  have hF2 := mapM_option_eq_some.mp hfc
  have hlen := mapM_option_length hfc
  obtain ⟨hlen2, hget⟩ := List.forall₂_iff_get.mp hF2
  have hic : i < c.length := by omega
  have := hget i hi hic
  rw [← getD_eq_get hi [], ← getD_eq_get hic Value.vNull] at this
  exact this


/-! ## Claim C1 — round-trip -/

/-- C1 counterexample: the claim quantifies over every non-empty,
uniformly-keyed record sequence whose values fit losslessly, but for
the sequence `[{}]` (one record, empty field set — uniformly keyed,
every value fits vacuously) the decoder reconstructs zero rows:
`decode(encode([{}])).records == []`, which differs from `[{}]`. -/
theorem C1_counterexample :
    ((encode_to_bytes id id [[]]).bind decode_from_bytes).map
        (fun res => pyEqRows res.json_data [[]]) = some false ∧
      ((encode_to_bytes id id [[]]).bind decode_from_bytes).map
        (fun res => res.json_data) = some [] := by
  decide

/-- C1 (amended): for every non-empty, uniformly-keyed record sequence
whose first record has at least one field, with distinct keys per
record, and whose values fit losslessly in the storage types the
detector narrows them to (for the float types: the `f16`/`f32`
narrowing fixes the value, which also covers the float16→float32
widening on unpack), decoding the encoded container reproduces the
original records exactly, in the sense of Python `==` on record
lists. -/
theorem C1_roundtrip_amended (f16 f32 : ℚ → ℚ) (rows : List Row) (B : List ℕ)
    (hkeys : keysOf (rows.headD []) ≠ [])
    (hnd : nodupKeysB rows = true)
    (huni : uniformKeysB rows = true)
    (hfits : fitsAllB f16 f32 rows = true)
    (henc : encode_to_bytes f16 f32 rows = some B) :
    (decode_from_bytes B).map (fun res => pyEqRows res.json_data rows) = some true := by
  rw [encode_to_bytes] at henc
  cases hEP : encodeParts f16 f32 rows with
  | none => rw [hEP] at henc; cases henc
  | some parts =>
    rw [hEP] at henc
    have hA : assemble parts = some B := henc
    obtain ⟨hrne, hfld, hcols, htypes, hcomp, hidx⟩ := encodeParts_spec hEP
    have hr0mem : rows.headD [] ∈ rows := by
      cases rows with
      | nil => exact absurd rfl hrne
      | cons r0 rest => exact List.mem_cons_self ..
    have hndf : parts.fields.Nodup := by
      rw [hfld]
      have := (List.all_eq_true.mp hnd) _ hr0mem
      simpa using this
    have hnefld : parts.fields ≠ [] := by rw [hfld]; exact hkeys
    have hfitp : ∀ p ∈ parts.columns.zip parts.types, ∀ v ∈ p.1,
        fitsB f16 f32 v p.2 = true := by
      rw [fitsAllB, hEP] at hfits
      intro p hp v hv
      exact List.all_eq_true.mp ((List.all_eq_true.mp hfits) p hp) v hv
    rw [decode_assemble hEP hA hndf hnefld hfitp]
    simp only [Option.map_some', Option.some.injEq]
    apply pyEqRows_of_index
    · simp
    · intro i hi
      have hJ : ((List.range rows.length).map (fun i =>
          (parts.fields.zip parts.columns).map
            (fun p => (p.1, p.2.getD i Value.vNull)))).getD i [] =
          (parts.fields.zip parts.columns).map
            (fun p => (p.1, p.2.getD i Value.vNull)) := by
        have h1 : ((List.range rows.length).map (fun i =>
            (parts.fields.zip parts.columns).map
              (fun p => (p.1, p.2.getD i Value.vNull)))).get? i =
            some ((parts.fields.zip parts.columns).map
              (fun p => (p.1, p.2.getD i Value.vNull))) := by
          rw [List.get?_map, List.get?_range hi]
          rfl
        rw [List.getD_eq_getElem?_getD, ← List.get?_eq_getElem?, h1]
        rfl
      rw [hJ]
      have hmem : rows.getD i [] ∈ rows := by
        rw [getD_eq_get hi []]
        exact List.get_mem ..
      apply pyEqRow_build hndf
      · have := (List.all_eq_true.mp hnd) _ hmem
        simpa using this
      · exact rowF_build hcols hi
      · intro k hk
        rw [hfld]
        cases rows with
        | nil => exact absurd rfl hrne
        | cons r0 rest =>
          rw [uniformKeysB] at huni
          rcases List.mem_cons.mp hmem with h1 | h1
          · rw [h1] at hk
            simpa using hk
          · have := (List.all_eq_true.mp huni) _ h1
            rw [Bool.and_eq_true] at this
            have h2 := List.all_eq_true.mp this.1 k hk
            simpa using h2

/-- C1 witness: Scenario 1's records round-trip. -/
theorem C1_witness :
    (decode_from_bytes scen1B).map (fun res => pyEqRows res.json_data scen1) =
      some true :=
  C1_roundtrip_amended id id scen1 scen1B (by decide) (by decide) (by decide)
    (by decide) (by decide)


/-! ## Claims C5 and C6 — type detection -/

theorem foldl_min_le : ∀ (l : List ℚ) (q : ℚ), ∀ x ∈ q :: l, l.foldl min q ≤ x := by
  intro l
  induction l with
  | nil =>
    intro q x hx
    rcases List.mem_cons.mp hx with h | h
    · subst h; simp
    · cases h
  | cons a l ih =>
    intro q x hx
    have h1 : (a :: l).foldl min q = l.foldl min (min q a) := rfl
    rw [h1]
    rcases List.mem_cons.mp hx with h | h
    · rw [h]
      calc l.foldl min (min q a) ≤ min q a := ih (min q a) _ (List.mem_cons_self ..)
        _ ≤ q := min_le_left ..
    · rcases List.mem_cons.mp h with h2 | h2
      · rw [h2]
        calc l.foldl min (min q a) ≤ min q a := ih (min q a) _ (List.mem_cons_self ..)
          _ ≤ a := min_le_right ..
      · exact ih (min q a) x (List.mem_cons_of_mem _ h2)

theorem foldl_min_mem : ∀ (l : List ℚ) (q : ℚ), l.foldl min q ∈ q :: l := by
  intro l
  induction l with
  | nil => intro q; simp
  | cons a l ih =>
    intro q
    have h1 : (a :: l).foldl min q = l.foldl min (min q a) := rfl
    rw [h1]
    rcases List.mem_cons.mp (ih (min q a)) with h | h
    · rcases min_choice q a with hc | hc
      · rw [h, hc]; exact List.mem_cons_self ..
      · rw [h, hc]; exact List.mem_cons_of_mem _ (List.mem_cons_self ..)
    · exact List.mem_cons_of_mem _ (List.mem_cons_of_mem _ h)

theorem le_foldl_max : ∀ (l : List ℚ) (q : ℚ), ∀ x ∈ q :: l, x ≤ l.foldl max q := by
  intro l
  induction l with
  | nil =>
    intro q x hx
    rcases List.mem_cons.mp hx with h | h
    · subst h; simp
    · cases h
  | cons a l ih =>
    intro q x hx
    have h1 : (a :: l).foldl max q = l.foldl max (max q a) := rfl
    rw [h1]
    rcases List.mem_cons.mp hx with h | h
    · rw [h]
      calc q ≤ max q a := le_max_left ..
        _ ≤ l.foldl max (max q a) := ih (max q a) _ (List.mem_cons_self ..)
    · rcases List.mem_cons.mp h with h2 | h2
      · rw [h2]
        calc a ≤ max q a := le_max_right ..
          _ ≤ l.foldl max (max q a) := ih (max q a) _ (List.mem_cons_self ..)
      · exact ih (max q a) x (List.mem_cons_of_mem _ h2)

theorem foldl_max_mem : ∀ (l : List ℚ) (q : ℚ), l.foldl max q ∈ q :: l := by
  intro l
  induction l with
  | nil => intro q; simp
  | cons a l ih =>
    intro q
    have h1 : (a :: l).foldl max q = l.foldl max (max q a) := rfl
    rw [h1]
    rcases List.mem_cons.mp (ih (max q a)) with h | h
    · rcases max_choice q a with hc | hc
      · rw [h, hc]; exact List.mem_cons_self ..
      · rw [h, hc]; exact List.mem_cons_of_mem _ (List.mem_cons_self ..)
    · exact List.mem_cons_of_mem _ (List.mem_cons_of_mem _ h)

theorem allNumB_iff_mapM {vs : List Value} :
    allNumB vs = true ↔ ∃ qs, vs.mapM numToRat = some qs := by
  induction vs with
  | nil =>
    constructor
    · intro _; exact ⟨[], rfl⟩
    · intro _; rfl
  | cons v vs ih =>
    rw [allNumB, List.all_cons, Bool.and_eq_true]
    constructor
    · rintro ⟨h1, h2⟩
      obtain ⟨q, hq⟩ := Option.isSome_iff_exists.mp h1
      obtain ⟨qs, hqs⟩ := ih.mp h2
      exact ⟨q :: qs, by rw [List.mapM_cons, hq, hqs]; rfl⟩
    · rintro ⟨qs, hqs⟩
      rw [List.mapM_cons] at hqs
      cases hq : numToRat v with
      | none => rw [hq] at hqs; simp at hqs
      | some q =>
        rw [hq] at hqs
        simp only [Option.bind_eq_bind, Option.some_bind] at hqs
        cases hqs2 : vs.mapM numToRat with
        | none => rw [hqs2] at hqs; simp at hqs
        | some qs2 =>
          exact ⟨rfl, ih.mpr ⟨qs2, hqs2⟩⟩

theorem inI16RangeB_iff {vs : List Value} {qs : List ℚ}
    (h : vs.mapM numToRat = some qs) :
    inI16RangeB vs = true ↔ ∀ q ∈ qs, -32768 ≤ q ∧ q ≤ 32767 := by
  have hF := mapM_option_eq_some.mp h
  rw [inI16RangeB, List.all_eq_true]
  constructor
  · intro hall q hq
    obtain ⟨v, hv, hvq⟩ := forall₂_mem_right hF hq
    have := hall v hv
    rw [hvq] at this
    simpa using this
  · intro hall v hv
    obtain ⟨q, hzip, hvq⟩ := forall₂_mem_left hF hv
    rw [hvq]
    have hqmem : q ∈ qs := (List.of_mem_zip hzip).2
    simpa using hall q hqmem

theorem inI16RangeB_allNum {vs : List Value} (h : inI16RangeB vs = true) :
    allNumB vs = true := by
  rw [inI16RangeB, List.all_eq_true] at h
  rw [allNumB, List.all_eq_true]
  intro v hv
  have := h v hv
  cases hq : numToRat v with
  | none => rw [hq] at this; simp at this
  | some q => simp [hq]

theorem f16okB_allNum {vs : List Value} (h : f16okB vs = true) :
    allNumB vs = true := by
  rw [f16okB, List.all_eq_true] at h
  rw [allNumB, List.all_eq_true]
  intro v hv
  have := h v hv
  cases hq : numToRat v with
  | none => rw [hq] at this; simp at this
  | some q => simp [hq]

theorem detect_int_none {vs : List Value} (h : vs.mapM numToRat = none) :
    detect_numeric_type_int vs = none := by
  rw [detect_numeric_type_int, h]
  rfl

theorem detect_int_some {vs : List Value} {q0 : ℚ} {qrest : List ℚ}
    (h : vs.mapM numToRat = some (q0 :: qrest)) :
    detect_numeric_type_int vs =
      (if ∀ q ∈ q0 :: qrest, -32768 ≤ q ∧ q ≤ 32767 then some JType.int16
        else some JType.int32) := by
  rw [detect_numeric_type_int, h]
  show (if -32768 ≤ qrest.foldl min q0 ∧ qrest.foldl min q0 ≤ 32767 ∧
      -32768 ≤ qrest.foldl max q0 ∧ qrest.foldl max q0 ≤ 32767 then some JType.int16
    else some JType.int32) = _
  by_cases hall : ∀ q ∈ q0 :: qrest, -32768 ≤ q ∧ q ≤ 32767
  · have hmodel : -32768 ≤ qrest.foldl min q0 ∧ qrest.foldl min q0 ≤ 32767 ∧
        -32768 ≤ qrest.foldl max q0 ∧ qrest.foldl max q0 ≤ 32767 := by
      obtain ⟨h1, h2⟩ := hall _ (foldl_min_mem qrest q0)
      obtain ⟨h3, h4⟩ := hall _ (foldl_max_mem qrest q0)
      exact ⟨h1, h2, h3, h4⟩
    rw [if_pos hmodel, if_pos hall]
  · have hmodel : ¬ (-32768 ≤ qrest.foldl min q0 ∧ qrest.foldl min q0 ≤ 32767 ∧
        -32768 ≤ qrest.foldl max q0 ∧ qrest.foldl max q0 ≤ 32767) := by
      intro hcon
      apply hall
      intro q hq
      obtain ⟨c1, c2, c3, c4⟩ := hcon
      exact ⟨le_trans c1 (foldl_min_le qrest q0 q hq),
        le_trans (le_foldl_max qrest q0 q hq) c4⟩
    rw [if_neg hmodel, if_neg hall]

theorem mapM_vInt_cons {n : ℤ} {rest : List Value} {qs : List ℚ}
    (hm : (Value.vInt n :: rest).mapM numToRat = some qs) :
    ∃ qrest, qs = (n : ℚ) :: qrest ∧ rest.mapM numToRat = some qrest := by
  rw [List.mapM_cons] at hm
  simp only [numToRat, Option.bind_eq_bind, Option.some_bind] at hm
  cases hm2 : rest.mapM numToRat with
  | none => rw [hm2] at hm; simp at hm
  | some qr =>
    rw [hm2] at hm
    simp only [Option.some_bind, pure, Option.some.injEq] at hm
    exact ⟨qr, hm.symm, rfl⟩

theorem dntf_spec :
    ∀ vs : List Value,
      (detect_numeric_type_float vs = some JType.float16 ↔ f16okB vs = true) ∧
      (allNumB vs = true → f16okB vs = false →
        detect_numeric_type_float vs = some JType.float32) := by
  intro vs
  induction vs with
  | nil =>
    refine ⟨⟨fun _ => rfl, fun _ => rfl⟩, fun _ hf => ?_⟩
    simp [f16okB] at hf
  | cons v vs ih =>
    obtain ⟨ih1, ih2⟩ := ih
    have hunf : detect_numeric_type_float (v :: vs) =
        (match numToRat v with
        | none => none
        | some q =>
          if q < -65504 ∨ 65504 < q then some JType.float32
          else if pyRound3 q ≠ q then some JType.float32
          else detect_numeric_type_float vs) := rfl
    have hok : f16okB (v :: vs) = ((match numToRat v with
        | some q => decide (-65504 ≤ q ∧ q ≤ 65504 ∧ pyRound3 q = q)
        | none => false) && f16okB vs) := rfl
    have hnum : allNumB (v :: vs) = ((numToRat v).isSome && allNumB vs) := rfl
    cases hq : numToRat v with
    | none =>
      have hunf2 : detect_numeric_type_float (v :: vs) = none := by rw [hunf, hq]
      have hok2 : f16okB (v :: vs) = false := by rw [hok, hq]; simp
      have hnum2 : allNumB (v :: vs) = false := by rw [hnum, hq]; simp
      rw [hunf2, hok2, hnum2]
      exact ⟨by simp, by simp⟩
    | some q =>
      have hunf2 : detect_numeric_type_float (v :: vs) =
          (if q < -65504 ∨ 65504 < q then some JType.float32
            else if pyRound3 q ≠ q then some JType.float32
            else detect_numeric_type_float vs) := by
        rw [hunf, hq]
      have hok2 : f16okB (v :: vs) =
          (decide (-65504 ≤ q ∧ q ≤ 65504 ∧ pyRound3 q = q) && f16okB vs) := by
        rw [hok, hq]
      have hnum2 : allNumB (v :: vs) = allNumB vs := by
        rw [hnum, hq]
        simp
      rw [hunf2, hok2, hnum2]
      by_cases hr : q < -65504 ∨ 65504 < q
      · rw [if_pos hr]
        refine ⟨?_, ?_⟩
        · constructor
          · intro hcon; simp at hcon
          · intro hcon
            rw [Bool.and_eq_true] at hcon
            have h1 := hcon.1
            simp only [decide_eq_true_eq] at h1
            rcases hr with hr | hr
            · linarith [h1.1]
            · linarith [h1.2.1]
        · intro _ _; rfl
      · rw [if_neg hr]
        push_neg at hr
        by_cases hrd : pyRound3 q = q
        · rw [if_neg (by simpa using hrd)]
          have hhead : decide (-65504 ≤ q ∧ q ≤ 65504 ∧ pyRound3 q = q) = true := by
            simp [hr.1, hr.2, hrd]
          rw [hhead, Bool.true_and]
          exact ⟨ih1, ih2⟩
        · rw [if_pos (by simpa using hrd)]
          refine ⟨?_, ?_⟩
          · constructor
            · intro hcon; simp at hcon
            · intro hcon
              rw [Bool.and_eq_true] at hcon
              have h1 := hcon.1
              simp only [decide_eq_true_eq] at h1
              exact absurd h1.2.2 hrd
          · intro _ _; rfl

/-! ### Claim theorems C5 and C6 -/

/-- C5 counterexample: for the column `[1.5, "x"]` (first element
floating-point, float16 criterion violated by the string), the claim
demands `float32`, but the scan raises a `TypeError` when the string is
compared with the float16 bounds. -/
theorem C5_counterexample :
    detect_type [Value.vFloat (Rat.divInt 3 2), Value.vStr "x"] = none ∧
      detect_type [Value.vFloat (Rat.divInt 3 2), Value.vStr "x"] ≠
        some JType.float32 := by
  decide

/-- C5 (amended): for a non-empty column whose first element is a
float, `detect_type` returns `float16` iff every value is a number in
`[-65504, 65504]` whose 3-decimal rounding is lossless; when all values
are numbers and the criterion fails it returns `float32`; when some
value is not a number it never returns `float16` (the scan raises
instead, unless an out-of-criterion number was seen first); and the
single-element column `[1.2345]` yields `float32`. -/
theorem C5_detect_float (q0 : ℚ) (rest : List Value) :
    (detect_type (Value.vFloat q0 :: rest) = some JType.float16 ↔
      f16okB (Value.vFloat q0 :: rest) = true) ∧
    (allNumB (Value.vFloat q0 :: rest) = true →
      f16okB (Value.vFloat q0 :: rest) = false →
      detect_type (Value.vFloat q0 :: rest) = some JType.float32) ∧
    (allNumB (Value.vFloat q0 :: rest) = false →
      detect_type (Value.vFloat q0 :: rest) ≠ some JType.float16) ∧
    detect_type [Value.vFloat (Rat.divInt 12345 10000)] = some JType.float32 := by
  have hdt : detect_type (Value.vFloat q0 :: rest) =
      detect_numeric_type_float (Value.vFloat q0 :: rest) := rfl
  obtain ⟨h1, h2⟩ := dntf_spec (Value.vFloat q0 :: rest)
  refine ⟨hdt ▸ h1, fun ha hf => hdt ▸ h2 ha hf, ?_, by decide⟩
  intro ha hcon
  rw [hdt] at hcon
  have := f16okB_allNum (h1.mp hcon)
  rw [this] at ha
  cases ha

/-- C5 witness: the float16 criterion fails for `[1.2345]`, and
`detect_type` indeed returns `float32`. -/
theorem C5_witness :
    detect_type (Value.vFloat (Rat.divInt 12345 10000) :: []) =
      some JType.float32 :=
  (C5_detect_float (Rat.divInt 12345 10000) []).2.1 (by decide) (by decide)

/-- C6 counterexample: for the column `[1, null]` (first element an
integer, int16 range violated by `null`), the claim demands `int32`,
but `min(values)` raises a `TypeError` comparing `None` with `int`. -/
theorem C6_counterexample :
    detect_type [Value.vInt 1, Value.vNull] = none ∧
      detect_type [Value.vInt 1, Value.vNull] ≠ some JType.int32 := by
  decide

/-- C6 (amended): for a non-empty column whose first element is an
integer (not a boolean), `detect_type` returns `int16` iff every value
is a number in `[-32768, 32767]`; when all values are numbers and some
lies outside the range it returns `int32`; when some value is not a
number, `min`/`max` raise instead; and `[40000, -1]` yields `int32`. -/
theorem C6_detect_int (n : ℤ) (rest : List Value) :
    (detect_type (Value.vInt n :: rest) = some JType.int16 ↔
      inI16RangeB (Value.vInt n :: rest) = true) ∧
    (allNumB (Value.vInt n :: rest) = true →
      inI16RangeB (Value.vInt n :: rest) = false →
      detect_type (Value.vInt n :: rest) = some JType.int32) ∧
    (allNumB (Value.vInt n :: rest) = false →
      detect_type (Value.vInt n :: rest) = none) ∧
    detect_type [Value.vInt 40000, Value.vInt (-1)] = some JType.int32 := by
  have hdt : detect_type (Value.vInt n :: rest) =
      detect_numeric_type_int (Value.vInt n :: rest) := rfl
  refine ⟨?_, ?_, ?_, by decide⟩
  · cases hm : (Value.vInt n :: rest).mapM numToRat with
    | none =>
      rw [hdt, detect_int_none hm]
      constructor
      · intro hcon; cases hcon
      · intro hcon
        obtain ⟨qs, hqs⟩ := allNumB_iff_mapM.mp (inI16RangeB_allNum hcon)
        rw [hqs] at hm
        cases hm
    | some qs =>
      obtain ⟨qrest, rfl, _⟩ := mapM_vInt_cons hm
      rw [hdt, detect_int_some hm, inI16RangeB_iff hm]
      by_cases hall : ∀ q ∈ (n : ℚ) :: qrest, -32768 ≤ q ∧ q ≤ 32767
      · rw [if_pos hall]
        exact ⟨fun _ => hall, fun _ => rfl⟩
      · rw [if_neg hall]
        exact ⟨fun hcon => by simp at hcon, fun hcon => absurd hcon hall⟩
  · intro ha hf
    obtain ⟨qs, hm⟩ := allNumB_iff_mapM.mp ha
    obtain ⟨qrest, rfl, _⟩ := mapM_vInt_cons hm
    rw [hdt, detect_int_some hm]
    rw [if_neg ?_]
    intro hall
    rw [(inI16RangeB_iff hm).mpr hall] at hf
    cases hf
  · intro ha
    cases hm : (Value.vInt n :: rest).mapM numToRat with
    | none => rw [hdt, detect_int_none hm]
    | some qs =>
      rw [allNumB_iff_mapM.mpr ⟨qs, hm⟩] at ha
      cases ha

/-- C6 witness: `[40000, -1]` is all-numeric, outside the int16 range,
and detected as `int32`. -/
theorem C6_witness :
    detect_type (Value.vInt 40000 :: [Value.vInt (-1)]) = some JType.int32 :=
  (C6_detect_int 40000 [Value.vInt (-1)]).2.1 (by decide) (by decide)


/-! ## Claim C3 — preview vs. encode -/

/-- C3: at the single-record input `[{"a": 1}]` (an int16 column) the
preview's estimated size differs from the byte length of the container
the real encode call produces.  The encoder emits an index block for
every numeric column (`int16`, `int32`, `float16`, `float32`) while
preview counts index entries only for `int32`/`float32` columns; in the
source, preview additionally compresses with zstd level 3 whereas the
encoder's module-level compressor uses level 7. -/
theorem C3_preview_mismatch :
    (preview id id rowsA).map PreviewResult.estimated_size ≠
      (encode_to_bytes id id rowsA).map List.length := by
  decide

/-! ## Claim C4 — missing row-count validation -/

/-- C4: decoding a container whose `"a"` column holds one value while
its `"b"` column holds two does not raise a `SchemaMismatchError` — the
decoder has no row-count check and silently returns a single record,
dropping the second value of column `"b"`. -/
theorem C4_silent_truncation :
    decode_from_bytes craftedB4 =
      some ⟨1, ["a", "b"], [("a", JType.int16), ("b", JType.int16)], 1,
        [[("a", Value.vInt 1), ("b", Value.vInt 2)]]⟩ := by
  decide

/-! ## Claim C8 — input validation -/

/-- C8 counterexample: `[{"a": 1}, {"a": 2, "b": 3}]` is not uniformly
keyed (the second record has an extra field), yet encode succeeds and
produces a container, silently dropping the extra field. -/
theorem C8_counterexample :
    uniformKeysB rowsExtra = false ∧
      (encode_to_bytes id id rowsExtra).isSome = true := by
  decide

/-- C8 (amended): encode rejects the empty sequence up front, and fails
(`KeyError` while building columns) whenever some record is missing one
of the first record's fields; a record carrying all of the first
record's fields plus extras is accepted, the extras ignored. -/
theorem C8_encode_validation (f16 f32 : ℚ → ℚ) (rows : List Row) (r : Row)
    (f : String) :
    encode_to_bytes f16 f32 [] = none ∧
    (r ∈ rows → f ∈ keysOf (rows.headD []) → r.lookup f = none →
      encode_to_bytes f16 f32 rows = none) := by
  constructor
  · rfl
  · intro hr hf hlook
    cases rows with
    | nil => rfl
    | cons r0 rest =>
      have hcols : (keysOf r0).mapM
          (fun g => (r0 :: rest).mapM (fun rr => rr.lookup g)) = none := by
        apply mapM_option_none_of_mem (by simpa using hf)
        exact mapM_option_none_of_mem hr hlook
      rw [encode_to_bytes]
      simp only [encodeParts]
      rw [hcols]
      rfl

/-- C8 witness: a record missing the first record's field `"a"` makes
encode fail. -/
theorem C8_witness :
    encode_to_bytes id id [[("a", Value.vInt 1)], []] = none :=
  (C8_encode_validation id id [[("a", Value.vInt 1)], []] [] "a").2
    (by decide) (by decide) (by decide)

/-! ## Claim C10 — mixed integer columns -/

theorem toI16_nonInt {v : Value} (h : nonIntB v = true) : toI16 v = none := by
  cases v <;> first | rfl | simp [nonIntB] at h

theorem toI32_nonInt {v : Value} (h : nonIntB v = true) : toI32 v = none := by
  cases v <;> first | rfl | simp [nonIntB] at h

theorem detect_vInt_cases {n : ℤ} {l : List Value} {t : JType}
    (h : detect_type (Value.vInt n :: l) = some t) :
    t = JType.int16 ∨ t = JType.int32 := by
  have hdt : detect_type (Value.vInt n :: l) =
      detect_numeric_type_int (Value.vInt n :: l) := rfl
  rw [hdt] at h
  cases hm : (Value.vInt n :: l).mapM numToRat with
  | none => rw [detect_int_none hm] at h; cases h
  | some qs =>
    obtain ⟨qrest, rfl, _⟩ := mapM_vInt_cons hm
    rw [detect_int_some hm] at h
    by_cases hall : ∀ q ∈ (n : ℚ) :: qrest, -32768 ≤ q ∧ q ≤ 32767
    · rw [if_pos hall] at h
      cases h
      exact Or.inl rfl
    · rw [if_neg hall] at h
      cases h
      exact Or.inr rfl

/-- C10: for every input containing a column whose first value is an
integer (not a boolean) but which also holds a value that is neither an
integer nor a boolean (a float, a string, null, ...), encode raises and
produces no container: either the `min`/`max` comparison during
detection raises, or `struct.pack` rejects the value — the column is
never silently mis-packed and never falls back to the `json` storage
type. -/
theorem C10_mixed_int_column (f16 f32 : ℚ → ℚ) (r0 : Row) (rest : List Row)
    (f : String) (n : ℤ) (rj : Row) (v : Value)
    (h0 : r0.lookup f = some (Value.vInt n))
    (hj : rj ∈ r0 :: rest) (hv : rj.lookup f = some v) (hni : nonIntB v = true) :
    encode_to_bytes f16 f32 (r0 :: rest) = none := by
  rw [encode_to_bytes]
  suffices hEP : encodeParts f16 f32 (r0 :: rest) = none by
    rw [hEP]
    rfl
  have hfmem : f ∈ keysOf r0 := by
    have := mem_of_lookup_eq_some h0
    exact List.mem_map.mpr ⟨(f, Value.vInt n), this, rfl⟩
  simp only [encodeParts]
  cases hcols : (keysOf r0).mapM
      (fun g => (r0 :: rest).mapM (fun rr => rr.lookup g)) with
  | none => rfl
  | some columns =>
    simp only [Option.bind_eq_bind, Option.some_bind]
    obtain ⟨col, hcolzip, hcolspec⟩ :=
      forall₂_mem_left (mapM_option_eq_some.mp hcols) hfmem
    have hcolmem : col ∈ columns := (List.of_mem_zip hcolzip).2
    have hFcol := mapM_option_eq_some.mp hcolspec
    -- col starts with vInt n
    have hcol0 : ∃ coltail, col = Value.vInt n :: coltail := by
      cases hFcol with
      | cons hfa hrest2 =>
        rename_i b l2
        rw [h0] at hfa
        cases hfa
        exact ⟨l2, rfl⟩
    obtain ⟨coltail, rfl⟩ := hcol0
    -- v is a member of the column
    have hvmem : v ∈ Value.vInt n :: coltail := by
      obtain ⟨b, hbzip, hbspec⟩ := forall₂_mem_left (mapM_option_eq_some.mp hcolspec) hj
      rw [hv] at hbspec
      cases hbspec
      exact (List.of_mem_zip hbzip).2
    cases htypes : columns.mapM detect_type with
    | none => rfl
    | some types =>
      simp only [Option.some_bind]
      obtain ⟨t, htzip, htspec⟩ :=
        forall₂_mem_left (mapM_option_eq_some.mp htypes) hcolmem
      have hpack : pack_column f16 f32 (Value.vInt n :: coltail) t = none := by
        rcases detect_vInt_cases htspec with ht | ht
        · subst ht
          rw [pack_column]
          rw [mapM_option_none_of_mem hvmem (toI16_nonInt hni)]
          rfl
        · subst ht
          rw [pack_column]
          rw [mapM_option_none_of_mem hvmem (toI32_nonInt hni)]
          rfl
      rw [mapM_option_none_of_mem htzip (by rw [hpack]; rfl)]
      rfl

/-- C10 witness: `[{"a": 1}, {"a": 0.5}]` (int-first column containing
a float) fails to encode. -/
theorem C10_witness :
    encode_to_bytes id id
      [[("a", Value.vInt 1)], [("a", Value.vFloat (Rat.divInt 1 2))]] = none :=
  C10_mixed_int_column id id [("a", Value.vInt 1)]
    [[("a", Value.vFloat (Rat.divInt 1 2))]] "a" 1
    [("a", Value.vFloat (Rat.divInt 1 2))] (Value.vFloat (Rat.divInt 1 2))
    (by decide) (by decide) (by decide) (by decide)


/-! ## Claim C7 — index construction -/

theorem lexLtQ_le {ks : List ℚ} {i j : ℕ} (h : lexLtQ ks i j) :
    ks.getD i 0 ≤ ks.getD j 0 := by
  rcases h with h | h
  · exact le_of_lt h
  · exact le_of_eq h.1

theorem orderedInsert_pairwise_lex (ks : List ℚ) (a : ℕ) :
    ∀ (l : List ℕ), (∀ b ∈ l, a < b) → List.Pairwise (lexLtQ ks) l →
      List.Pairwise (lexLtQ ks) (List.orderedInsert (keyLe ks) a l) := by
  intro l
  induction l with
  | nil =>
    intro _ _
    simp [List.orderedInsert]
  | cons b t ih =>
    intro ha hl
    rw [List.orderedInsert]
    by_cases hab : keyLe ks a b
    · rw [if_pos hab]
      refine List.Pairwise.cons ?_ hl
      intro c hc
      have hac : ks.getD a 0 ≤ ks.getD c 0 := by
        rcases List.mem_cons.mp hc with h | h
        · rw [h]
          exact hab
        · have hbc := List.rel_of_pairwise_cons hl h
          exact le_trans hab (lexLtQ_le hbc)
      rcases lt_or_eq_of_le hac with h | h
      · exact Or.inl h
      · exact Or.inr ⟨h, ha c hc⟩
    · rw [if_neg hab]
      have hba : ks.getD b 0 < ks.getD a 0 := by
        rw [keyLe] at hab
        exact lt_of_not_le hab
      refine List.Pairwise.cons ?_ (ih (fun x hx => ha x (List.mem_cons_of_mem _ hx))
        (List.Pairwise.of_cons hl))
      intro c hc
      rcases (List.mem_orderedInsert _).mp hc with h | h
      · rw [h]
        exact Or.inl hba
      · exact List.rel_of_pairwise_cons hl h

theorem insertionSort_pairwise_lex (ks : List ℚ) :
    ∀ (l : List ℕ), List.Pairwise (· < ·) l →
      List.Pairwise (lexLtQ ks) (l.insertionSort (keyLe ks)) := by
  intro l
  induction l with
  | nil => intro _; simp [List.insertionSort]
  | cons x xs ih =>
    intro hp
    rw [List.insertionSort]
    apply orderedInsert_pairwise_lex
    · intro b hb
      exact List.rel_of_pairwise_cons hp ((List.mem_insertionSort _).mp hb)
    · exact ih (List.Pairwise.of_cons hp)

theorem build_index_perm (ks : List ℚ) :
    (build_index ks).Perm (List.range ks.length) :=
  List.perm_insertionSort ..

theorem build_index_pairwise (ks : List ℚ) :
    List.Pairwise (lexLtQ ks) (build_index ks) :=
  insertionSort_pairwise_lex ks _ (List.sorted_lt_range _)

theorem map_ratOf_eq {col : List Value} {qs : List ℚ}
    (h : col.mapM numToRat = some qs) : col.map ratOf = qs := by
  have hF := mapM_option_eq_some.mp h
  clear h
  induction hF with
  | nil => rfl
  | cons hfa hrest ih =>
    rw [List.map_cons, ih]
    congr 1
    rw [ratOf, hfa]
    rfl

theorem buildIndexes_lookup_none (f16 f32 : ℚ → ℚ) :
    ∀ {trips : List (String × List Value × JType)} {idxs : List (String × List ℕ)},
      buildIndexes f16 f32 trips = some idxs →
      ∀ {f : String}, f ∉ trips.map (fun x => x.1) → idxs.lookup f = none := by
  intro trips
  induction trips with
  | nil =>
    intro idxs h f _
    cases h
    rfl
  | cons trip rest ih =>
    rcases trip with ⟨g, colg, tg⟩
    intro idxs h f hf
    rw [buildIndexes] at h
    cases htail : buildIndexes f16 f32 rest with
    | none => rw [htail] at h; cases h
    | some tail =>
      rw [htail] at h
      simp only [Option.bind_eq_bind, Option.some_bind] at h
      have hfrest : f ∉ rest.map (fun x => x.1) := by
        intro hcon
        exact hf (List.mem_cons_of_mem _ hcon)
      have hfg : f ≠ g := by
        intro hcon
        exact hf (by rw [hcon]; exact List.mem_cons_self ..)
      by_cases hnum : isNumericType tg = true
      · rw [if_pos hnum] at h
        cases hks : colg.mapM numToRat with
        | none => rw [hks] at h; cases h
        | some ks =>
          rw [hks] at h
          simp only [Option.some_bind, pure, Option.some.injEq] at h
          subst h
          simp only [List.lookup]
          rw [show (f == g) = false from beq_eq_false_iff_ne.mpr hfg]
          exact ih htail hfrest
      · rw [if_neg hnum] at h
        simp only [pure, Option.some.injEq] at h
        subst h
        exact ih htail hfrest

theorem buildIndexes_lookup (f16 f32 : ℚ → ℚ) :
    ∀ {trips : List (String × List Value × JType)} {idxs : List (String × List ℕ)},
      buildIndexes f16 f32 trips = some idxs →
      (trips.map (fun x => x.1)).Nodup →
      ∀ {f : String} {col : List Value} {t : JType}, (f, col, t) ∈ trips →
        (isNumericType t = true →
          ∃ ks, col.mapM numToRat = some ks ∧
            idxs.lookup f = some (zc (dumpNats (build_index ks)))) ∧
        (isNumericType t = false → idxs.lookup f = none) := by
  intro trips
  induction trips with
  | nil =>
    intro idxs _ _ f col t hmem
    cases hmem
  | cons trip rest ih =>
    rcases trip with ⟨g, colg, tg⟩
    intro idxs h hnd f col t hmem
    rw [buildIndexes] at h
    cases htail : buildIndexes f16 f32 rest with
    | none => rw [htail] at h; cases h
    | some tail =>
      rw [htail] at h
      simp only [Option.bind_eq_bind, Option.some_bind] at h
      rw [List.map_cons, List.nodup_cons] at hnd
      rcases List.mem_cons.mp hmem with hh | hh
      · cases hh
        constructor
        · intro hnum
          rw [if_pos hnum] at h
          cases hks : colg.mapM numToRat with
          | none => rw [hks] at h; cases h
          | some ks =>
            rw [hks] at h
            simp only [Option.some_bind, pure, Option.some.injEq] at h
            subst h
            refine ⟨ks, rfl, ?_⟩
            simp [List.lookup]
        · intro hnum
          rw [if_neg (by rw [hnum]; exact Bool.false_ne_true)] at h
          simp only [pure, Option.some.injEq] at h
          subst h
          exact buildIndexes_lookup_none f16 f32 htail hnd.1
      · have hfg : f ≠ g := by
          intro hcon
          apply hnd.1
          rw [← hcon]
          exact List.mem_map.mpr ⟨(f, col, t), hh, rfl⟩
        have hrec := ih htail hnd.2 hh
        by_cases hnum : isNumericType tg = true
        · rw [if_pos hnum] at h
          cases hks : colg.mapM numToRat with
          | none => rw [hks] at h; cases h
          | some ks =>
            rw [hks] at h
            simp only [Option.some_bind, pure, Option.some.injEq] at h
            subst h
            constructor
            · intro hnum2
              obtain ⟨ks2, hks2, hlook⟩ := hrec.1 hnum2
              refine ⟨ks2, hks2, ?_⟩
              simp only [List.lookup]
              rw [show (f == g) = false from beq_eq_false_iff_ne.mpr hfg]
              exact hlook
            · intro hnum2
              have hlook := hrec.2 hnum2
              simp only [List.lookup]
              rw [show (f == g) = false from beq_eq_false_iff_ne.mpr hfg]
              exact hlook
        · rw [if_neg hnum] at h
          simp only [pure, Option.some.injEq] at h
          subst h
          exact hrec

/-- C7: for every column a successful encode assigns a numeric storage
type (`int16`, `int32`, `float16`, `float32`), the encoder stores an
index — the compressed serialized sort permutation of `0..n-1` ordering
the column's values ascending with ties broken by original row
position (a stable sort, expressed by `lexLtQ`) — and stores no index
for `bool`/`str`/`json` columns. -/
theorem C7_index_validity (f16 f32 : ℚ → ℚ) (rows : List Row) (parts : Parts)
    (f : String) (col : List Value) (t : JType)
    (hEP : encodeParts f16 f32 rows = some parts)
    (hnd : parts.fields.Nodup)
    (hmem : (f, (col, t)) ∈ parts.fields.zip (parts.columns.zip parts.types)) :
    (isNumericType t = true →
      parts.indexes.lookup f = some (zc (dumpNats (build_index (col.map ratOf)))) ∧
      (build_index (col.map ratOf)).Perm (List.range col.length) ∧
      List.Pairwise (lexLtQ (col.map ratOf)) (build_index (col.map ratOf))) ∧
    (isNumericType t = false → parts.indexes.lookup f = none) := by
  obtain ⟨_, _, _, _, _, hidx⟩ := encodeParts_spec hEP
  have htripmem : (f, col, t) ∈ (parts.fields.zip (parts.columns.zip parts.types)).map
      (fun x => (x.1, x.2.1, x.2.2)) :=
    List.mem_map.mpr ⟨(f, (col, t)), hmem, rfl⟩
  have hndtrips : (((parts.fields.zip (parts.columns.zip parts.types)).map
      (fun x => (x.1, x.2.1, x.2.2))).map (fun x => x.1)).Nodup := by
    have hcomp : ((fun x : String × List Value × JType => x.1) ∘
        fun x : String × List Value × JType => (x.1, x.2.1, x.2.2)) = Prod.fst := rfl
    rw [List.map_map, hcomp]
    exact hnd.sublist (map_fst_zip_sublist ..)
  have hres := buildIndexes_lookup f16 f32 hidx hndtrips htripmem
  constructor
  · intro hnum
    obtain ⟨ks, hks, hlook⟩ := hres.1 hnum
    have hmap := map_ratOf_eq hks
    refine ⟨by rw [hmap]; exact hlook, ?_, ?_⟩
    · have := build_index_perm (col.map ratOf)
      simpa using this
    · exact build_index_pairwise (col.map ratOf)
  · exact hres.2

/-- C7 witness: the single int16 column of `[{"a": 1}]` gets the index
`[0]`, a sorted permutation of `0..0`. -/
theorem C7_witness :
    partsA.indexes.lookup "a" =
      some (zc (dumpNats (build_index ([Value.vInt 1].map ratOf)))) ∧
    (build_index ([Value.vInt 1].map ratOf)).Perm
      (List.range [Value.vInt 1].length) ∧
    List.Pairwise (lexLtQ ([Value.vInt 1].map ratOf))
      (build_index ([Value.vInt 1].map ratOf)) :=
  (C7_index_validity id id rowsA partsA "a" [Value.vInt 1] JType.int16
    (by decide) (by decide) (by decide)).1 (by decide)


/-! ## Claim C9 — find_min: loading the container back -/

theorem readRawCols_build :
    ∀ {fs : List String} {bc : List (List ℕ × List ℕ)},
      List.Forall₂ (fun _ p => p.1.length < 2 ^ 32 ∧
        p.2 = toLE4 p.1.length ++ p.1) (fs : List String) bc →
      ∀ rest,
        readRawCols fs (catList (bc.map Prod.snd) ++ rest) =
          some (fs.zip (bc.map Prod.fst), rest) := by
  intro fs bc h
  induction h with
  | nil => intro rest; simp [readRawCols, catList]
  | cons hf hrest ih =>
    rename_i f p fs2 bc2
    intro rest
    obtain ⟨hlen, hblk⟩ := hf
    simp only [List.map_cons, catList, readRawCols]
    rw [hblk]
    simp only [List.append_assoc]
    rw [takeN_of_append (toLE4_length _)]
    simp only [Option.bind_eq_bind, Option.some_bind]
    rw [fromLE4_toLE4 hlen]
    rw [take_len_append rfl, drop_len_append rfl]
    rw [ih rest]
    rfl

theorem string_data_roundtrip (s : String) :
    String.mk ((s.data.map Char.toNat).map Char.ofNat) = s := by
  rw [List.map_map]
  rw [show (Char.ofNat ∘ Char.toNat) = id from funext char_ofNat_toNat]
  simp

theorem readIdxEntries_build :
    ∀ {entries : List (String × List ℕ)} {blocks : List (List ℕ)},
      List.Forall₂ (fun fi blk =>
        fi.1.length < 2 ^ 32 ∧ fi.2.length < 2 ^ 32 ∧
          blk = toLE4 fi.1.length ++ (fi.1.data.map Char.toNat ++
            (toLE4 fi.2.length ++ fi.2))) entries blocks →
      ∀ rest, readIdxEntries entries.length (catList blocks ++ rest) =
        some (entries, rest) := by
  intro entries blocks h
  induction h with
  | nil => intro rest; simp [readIdxEntries, catList]
  | cons hf hrest ih =>
    rename_i fi blk entries2 blocks2
    intro rest
    obtain ⟨hn, hb, hblk⟩ := hf
    simp only [List.length_cons, catList, readIdxEntries]
    rw [hblk]
    simp only [List.append_assoc]
    rw [takeN_of_append (toLE4_length _)]
    simp only [Option.bind_eq_bind, Option.some_bind]
    rw [fromLE4_toLE4 hn]
    have hnl : (fi.1.data.map Char.toNat).length = fi.1.length := by
      rw [List.length_map]
      exact (string_length_data fi.1).symm
    rw [take_len_append hnl, drop_len_append hnl]
    rw [takeN_of_append (toLE4_length _)]
    simp only [Option.some_bind]
    rw [fromLE4_toLE4 hb]
    rw [take_len_append rfl, drop_len_append rfl]
    rw [ih rest]
    simp only [Option.some_bind, pure, Option.some.injEq, Prod.mk.injEq]
    rw [string_data_roundtrip]
    exact ⟨rfl, trivial⟩

theorem jonxLoad_assemble {f16 f32 : ℚ → ℚ} {rows : List Row} {parts : Parts}
    {B : List ℕ}
    (hEP : encodeParts f16 f32 rows = some parts)
    (hA : assemble parts = some B)
    (hnd : parts.fields.Nodup)
    (hne : parts.fields ≠ [])
    (hfitp : ∀ p ∈ parts.columns.zip parts.types, ∀ v ∈ p.1,
      fitsB f16 f32 v p.2 = true) :
    jonxLoad B = some ⟨parts.fields, parts.fields.zip parts.types,
      parts.fields.zip parts.comp, parts.indexes⟩ := by
  obtain ⟨hrne, hfld, hcols, htypes, hcomp, hidx⟩ := encodeParts_spec hEP
  obtain ⟨colBlocks, idxBlocks, hsb, hFcol, hnidx, hFidx, hB⟩ := assemble_spec hA
  rw [jonxLoad, decode_assemble hEP hA hnd hne hfitp]
  simp only [Option.bind_eq_bind, Option.some_bind]
  rw [hB]
  rw [show MAGIC ++ (toLE4 1 ++
      (toLE4 (zc (dumpSchema parts.fields (parts.fields.zip parts.types))).length ++
        (zc (dumpSchema parts.fields (parts.fields.zip parts.types)) ++
          (catList colBlocks ++
            (toLE4 parts.indexes.length ++ catList idxBlocks))))) =
      (MAGIC ++ toLE4 1) ++
      (toLE4 (zc (dumpSchema parts.fields (parts.fields.zip parts.types))).length ++
        (zc (dumpSchema parts.fields (parts.fields.zip parts.types)) ++
          (catList colBlocks ++
            (toLE4 parts.indexes.length ++ catList idxBlocks)))) from by
    simp [List.append_assoc]]
  rw [drop_len_append (show (MAGIC ++ toLE4 1).length = 8 from rfl)]
  rw [takeN_of_append (toLE4_length _)]
  simp only [Option.some_bind]
  rw [fromLE4_toLE4 hsb]
  rw [drop_len_append rfl]
  have hFraw : List.Forall₂ (fun _ p => (Prod.fst p : List ℕ).length < 2 ^ 32 ∧
      (p.2 : List ℕ) = toLE4 p.1.length ++ p.1)
      parts.fields (parts.comp.zip colBlocks) := by
    refine forall₂_of_zip _ _ ?_ ?_
    · rw [List.length_zip]
      have h1 := (mapM_option_length hcols).symm
      have h2 := hFcol.length_eq
      have h3 := mapM_option_length hcomp
      rw [List.length_zip] at h3
      have h4 := (mapM_option_length htypes).symm
      omega
    · intro p hp
      have hm : (p.2.1, p.2.2) ∈ parts.comp.zip colBlocks := by
        rw [Prod.mk.eta]
        exact (List.of_mem_zip hp).2
      exact List.forall₂_zip hFcol hm
  rw [show catList colBlocks = catList ((parts.comp.zip colBlocks).map Prod.snd) from by
    rw [List.map_snd_zip _ _ (le_of_eq hFcol.length_eq.symm)]]
  rw [readRawCols_build hFraw _]
  simp only [Option.some_bind]
  rw [List.map_fst_zip _ _ (le_of_eq hFcol.length_eq)]
  rw [takeN_of_append (toLE4_length _)]
  simp only [Option.some_bind]
  rw [fromLE4_toLE4 hnidx]
  rw [show catList idxBlocks = catList idxBlocks ++ [] from (List.append_nil _).symm]
  rw [readIdxEntries_build hFidx []]
  rfl


/-! ### `min()` over a list of keyed values, and `find_min` agreement -/

theorem get?_zip {α β : Type} :
    ∀ {l1 : List α} {l2 : List β} {i : ℕ} {a : α} {b : β},
      l1.get? i = some a → l2.get? i = some b → (l1.zip l2).get? i = some (a, b) := by
  intro l1
  induction l1 with
  | nil => intro l2 i a b h1 _; exact Option.noConfusion h1
  | cons x l1 ih =>
    intro l2 i a b h1 h2
    cases l2 with
    | nil => exact Option.noConfusion h2
    | cons y l2 =>
      cases i with
      | zero =>
        have ha : x = a := by injection h1
        have hb : y = b := by injection h2
        rw [← ha, ← hb]
        rfl
      | succ i => exact ih h1 h2

theorem get?_of_zip {α β : Type} :
    ∀ {l1 : List α} {l2 : List β} {i : ℕ} {p : α × β},
      (l1.zip l2).get? i = some p → l1.get? i = some p.1 ∧ l2.get? i = some p.2 := by
  intro l1
  induction l1 with
  | nil => intro l2 i p h; exact Option.noConfusion h
  | cons x l1 ih =>
    intro l2 i p h
    cases l2 with
    | nil => exact Option.noConfusion h
    | cons y l2 =>
      cases i with
      | zero =>
        have hxy : (x, y) = p := by injection h
        rw [← hxy]
        exact ⟨rfl, rfl⟩
      | succ i => exact ih h

theorem mem_get?_exists {α : Type} {x : α} :
    ∀ {l : List α}, x ∈ l → ∃ i, l.get? i = some x := by
  intro l
  induction l with
  | nil => intro h; cases h
  | cons y l ih =>
    intro h
    rcases List.mem_cons.mp h with h1 | h1
    · exact ⟨0, by rw [h1]; rfl⟩
    · obtain ⟨i, hi⟩ := ih h1
      exact ⟨i + 1, hi⟩

theorem forall₂_get? {α β : Type} {R : α → β → Prop} :
    ∀ {l1 : List α} {l2 : List β}, List.Forall₂ R l1 l2 →
      ∀ {i : ℕ} {a : α}, l1.get? i = some a →
        ∃ b, l2.get? i = some b ∧ R a b := by
  intro l1 l2 h
  induction h with
  | nil => intro i a h1; exact Option.noConfusion h1
  | cons hf hrest ih =>
    rename_i x y xs ys
    intro i a h1
    cases i with
    | zero =>
      have hx : x = a := by injection h1
      exact ⟨y, rfl, hx ▸ hf⟩
    | succ i => exact ih h1

theorem getD_map_lt {α β : Type} (g : α → β) {l : List α} {i : ℕ} (h : i < l.length)
    (d : α) (d2 : β) : (l.map g).getD i d2 = g (l.getD i d) := by
  have hm : i < (l.map g).length := by rw [List.length_map]; exact h
  have h1 := get?_eq_some_getD hm d2
  rw [List.get?_map, get?_eq_some_getD h d] at h1
  simp only [Option.map_some'] at h1
  exact (Option.some.inj h1).symm

theorem getD_lt_mem {α : Type} {l : List α} {i : ℕ} (h : i < l.length) (d : α) :
    l.getD i d ∈ l :=
  List.get?_mem (get?_eq_some_getD h d)

theorem mem_getD {α : Type} {l : List α} {x : α} (h : x ∈ l) (d : α) :
    ∃ i, i < l.length ∧ l.getD i d = x := by
  obtain ⟨i, hi⟩ := mem_get?_exists h
  have hlt : i < l.length := by
    by_contra hc
    rw [List.get?_eq_none.mpr (by omega)] at hi
    exact Option.noConfusion hi
  refine ⟨i, hlt, ?_⟩
  have h2 := get?_eq_some_getD hlt d
  rw [hi] at h2
  exact (Option.some.inj h2).symm

/-- The linear `min()` scan over values `G x` whose Python comparison
key is `x` itself computes `G` of the rational minimum. -/
theorem pyMin_fold (G : ℚ → Value) :
    ∀ (ks : List ℚ) (q : ℚ), (∀ x ∈ q :: ks, numToRat (G x) = some x) →
      List.foldlM (fun acc v => (pyLtVal v acc).map (fun b => if b then v else acc))
        (G q) (ks.map G) = some (G (ks.foldl min q)) := by
  intro ks
  induction ks with
  | nil => intro q _; rfl
  | cons x ks ih =>
    intro q hG
    have hq : numToRat (G q) = some q := hG q (by simp)
    have hx : numToRat (G x) = some x := hG x (by simp)
    have hstep : pyLtVal (G x) (G q) = some (decide (x < q)) := by
      rw [pyLtVal, hx, hq]
      intro sa sb hsa _
      rw [hsa] at hx
      exact Option.noConfusion hx
    rw [List.map_cons]
    simp only [List.foldlM_cons]
    rw [hstep]
    simp only [Option.map_some', Option.bind_eq_bind, Option.some_bind, List.foldl_cons]
    have hacc : (if decide (x < q) = true then G x else G q) = G (min q x) := by
      rcases lt_or_le x q with h | h
      · rw [if_pos (decide_eq_true h), min_eq_right h.le]
      · rw [if_neg (by rw [decide_eq_true_eq]; exact not_lt.mpr h), min_eq_left h]
    rw [hacc]
    refine ih (min q x) ?_
    intro y hy
    rcases List.mem_cons.mp hy with h1 | h1
    · rcases min_choice q x with hm | hm
      · rw [h1, hm]; exact hq
      · rw [h1, hm]; exact hx
    · exact hG y (List.mem_cons_of_mem _ (List.mem_cons_of_mem _ h1))

/-- `min()` of a non-empty keyed column. -/
theorem pyMin_map (G : ℚ → Value) (q : ℚ) (ks : List ℚ)
    (hG : ∀ x ∈ q :: ks, numToRat (G x) = some x) :
    pyMin ((q :: ks).map G) = some (G (ks.foldl min q)) := by
  rw [List.map_cons]
  show List.foldlM (fun acc v => (pyLtVal v acc).map (fun b => if b then v else acc))
    (G q) (ks.map G) = _
  exact pyMin_fold G ks q hG

theorem build_index_ne_nil {ks : List ℚ} (h : ks ≠ []) : build_index ks ≠ [] := by
  intro hc
  have hperm := build_index_perm ks
  rw [hc] at hperm
  have h2 := hperm.length_eq
  rw [List.length_range] at h2
  simp only [List.length_nil] at h2
  exact h (List.length_eq_zero.mp h2.symm)

/-- The head of the sort permutation is a valid position with a minimal
key. -/
theorem build_index_min (ks : List ℚ) {i0 : ℕ} {tl : List ℕ}
    (h : build_index ks = i0 :: tl) :
    i0 < ks.length ∧ ∀ j, j < ks.length → ks.getD i0 0 ≤ ks.getD j 0 := by
  have hperm := build_index_perm ks
  rw [h] at hperm
  have hpw := build_index_pairwise ks
  rw [h] at hpw
  have hi0 : i0 ∈ List.range ks.length := hperm.mem_iff.mp (by simp)
  refine ⟨List.mem_range.mp hi0, ?_⟩
  intro j hj
  have hjmem : j ∈ i0 :: tl := hperm.mem_iff.mpr (List.mem_range.mpr hj)
  rcases List.mem_cons.mp hjmem with h1 | h1
  · rw [h1]
  · exact lexLtQ_le ((List.pairwise_cons.mp hpw).1 j h1)

/-- If a stored index was built from the column's own comparison keys,
the indexed lookup `column[idx[0]]` returns exactly what the linear
`min()` scan returns. -/
theorem find_min_agree (jf : JONXFile) (f : String) (ks : List ℚ) (F : ℚ → Value)
    (col : List Value)
    (hcol : col = ks.map F)
    (hF : ∀ q ∈ ks, numToRat (F q) = some q)
    (hlook : jf.indexes.lookup f = some (zc (dumpNats (build_index ks))))
    (hlen : (dumpNats (build_index ks)).length < 2 ^ 32) :
    find_min jf f col true = pyMin col := by
  rw [find_min, if_pos (by rw [hlook]; exact ⟨rfl, rfl⟩)]
  simp only [Option.bind_eq_bind]
  rw [hlook]
  simp only [Option.some_bind]
  rw [zd_zc hlen]
  simp only [Option.some_bind]
  rw [parseNats_dumpNats]
  simp only [Option.some_bind]
  subst hcol
  cases hks : ks with
  | nil => rfl
  | cons k ktl =>
    cases hidx : build_index (k :: ktl) with
    | nil => exact absurd hidx (build_index_ne_nil (by intro hc; cases hc))
    | cons i0 tl =>
      obtain ⟨hi0lt, hmin⟩ := build_index_min (k :: ktl) hidx
      rw [hks] at hF
      have h0 : (i0 :: tl).get? 0 = some i0 := rfl
      rw [h0]
      simp only [Option.some_bind]
      have hi0m : i0 < ((k :: ktl).map F).length := by
        rw [List.length_map]; exact hi0lt
      rw [get?_eq_some_getD hi0m (F 0)]
      rw [pyMin_map F k ktl hF]
      rw [getD_map_lt F hi0lt 0 (F 0)]
      have hkey : (k :: ktl).getD i0 0 = ktl.foldl min k := by
        apply le_antisymm
        · obtain ⟨jm, hjm, hjeq⟩ := mem_getD (foldl_min_mem ktl k) (0 : ℚ)
          rw [← hjeq]
          exact hmin jm hjm
        · exact foldl_min_le ktl k _ (getD_lt_mem hi0lt 0)
      rw [hkey]


/-! ### The shapes `fitsB` forces on stored values -/

theorem fitsB_int16_shape {f16 f32 : ℚ → ℚ} {v : Value}
    (h : fitsB f16 f32 v JType.int16 = true) : ∃ n : ℤ, v = Value.vInt n := by
  cases v with
  | vInt n => exact ⟨n, rfl⟩
  | vNull => exact Bool.noConfusion h
  | vBool b => exact Bool.noConfusion h
  | vFloat q => exact Bool.noConfusion h
  | vStr s => exact Bool.noConfusion h

theorem fitsB_int32_shape {f16 f32 : ℚ → ℚ} {v : Value}
    (h : fitsB f16 f32 v JType.int32 = true) : ∃ n : ℤ, v = Value.vInt n := by
  cases v with
  | vInt n => exact ⟨n, rfl⟩
  | vNull => exact Bool.noConfusion h
  | vBool b => exact Bool.noConfusion h
  | vFloat q => exact Bool.noConfusion h
  | vStr s => exact Bool.noConfusion h

theorem fitsB_float16_shape {f16 f32 : ℚ → ℚ} {v : Value}
    (h : fitsB f16 f32 v JType.float16 = true) : ∃ q : ℚ, v = Value.vFloat q := by
  cases v with
  | vFloat q => exact ⟨q, rfl⟩
  | vNull => exact Bool.noConfusion h
  | vBool b => exact Bool.noConfusion h
  | vInt n => exact Bool.noConfusion h
  | vStr s => exact Bool.noConfusion h

theorem fitsB_float32_shape {f16 f32 : ℚ → ℚ} {v : Value}
    (h : fitsB f16 f32 v JType.float32 = true) : ∃ q : ℚ, v = Value.vFloat q := by
  cases v with
  | vFloat q => exact ⟨q, rfl⟩
  | vNull => exact Bool.noConfusion h
  | vBool b => exact Bool.noConfusion h
  | vInt n => exact Bool.noConfusion h
  | vStr s => exact Bool.noConfusion h

theorem eq_map_of_forall₂ {α β : Type} {F : β → α} :
    ∀ {l1 : List α} {l2 : List β},
      List.Forall₂ (fun a b => a = F b) l1 l2 → l1 = l2.map F := by
  intro l1 l2 h
  induction h with
  | nil => rfl
  | cons hf _ ih =>
    rw [List.map_cons, ← hf, ih]

theorem forall₂_imp_mem {α β : Type} {R S : α → β → Prop} :
    ∀ {l1 : List α} {l2 : List β}, List.Forall₂ R l1 l2 →
      (∀ a ∈ l1, ∀ b ∈ l2, R a b → S a b) → List.Forall₂ S l1 l2 := by
  intro l1 l2 h
  induction h with
  | nil => intro _; exact List.Forall₂.nil
  | cons hf hrest ih =>
    rename_i x y xs ys
    intro himp
    refine List.Forall₂.cons (himp x (by simp) y (by simp) hf) (ih ?_)
    intro a ha b hb hr
    exact himp a (List.mem_cons_of_mem _ ha) b (List.mem_cons_of_mem _ hb) hr

theorem zc_length (b : List ℕ) : (zc b).length = 4 + b.length := by
  rw [zc, List.length_append, toLE4_length]


/-- C9: `find_min` returns `column[index[0]]` when an index for the
field is present and the caller opts in with `use_index`, and otherwise
performs a full linear `min()` scan; on a numeric column of a container
produced by the encoder (losslessly stored, per-record keys distinct),
the column loads back intact and both query modes return the same
value, the column's linear-scan minimum. -/
theorem C9_find_min (f16 f32 : ℚ → ℚ) (rows : List Row) (parts : Parts) (B : List ℕ)
    (jf : JONXFile) (f : String) (colv : List Value) (t : JType)
    (hEP : encodeParts f16 f32 rows = some parts)
    (hA : assemble parts = some B)
    (hnd : parts.fields.Nodup)
    (hne : parts.fields ≠ [])
    (hfitp : ∀ p ∈ parts.columns.zip parts.types, ∀ v ∈ p.1, fitsB f16 f32 v p.2 = true)
    (hload : jonxLoad B = some jf)
    (hmem : (f, (colv, t)) ∈ parts.fields.zip (parts.columns.zip parts.types))
    (hnum : isNumericType t = true) :
    (∀ (jf2 : JONXFile) (f2 : String) (col2 : List Value),
      find_min jf2 f2 col2 false = pyMin col2) ∧
    (∀ (jf2 : JONXFile) (f2 : String) (col2 : List Value) (blob packed : List ℕ)
      (idx : List ℕ) (i0 : ℕ),
      jf2.indexes.lookup f2 = some blob → zd blob = some packed →
      parseNats packed = some idx → idx.get? 0 = some i0 →
      find_min jf2 f2 col2 true = col2.get? i0) ∧
    get_column jf f = some colv ∧
    find_min jf f colv true = find_min jf f colv false ∧
    find_min jf f colv false = pyMin colv := by
  have hpart1 : ∀ (jf2 : JONXFile) (f2 : String) (col2 : List Value),
      find_min jf2 f2 col2 false = pyMin col2 := by
    intro jf2 f2 col2
    rw [find_min, if_neg (fun hc => Bool.noConfusion hc.1)]
  have hpart2 : ∀ (jf2 : JONXFile) (f2 : String) (col2 : List Value)
      (blob packed : List ℕ) (idx : List ℕ) (i0 : ℕ),
      jf2.indexes.lookup f2 = some blob → zd blob = some packed →
      parseNats packed = some idx → idx.get? 0 = some i0 →
      find_min jf2 f2 col2 true = col2.get? i0 := by
    intro jf2 f2 col2 blob packed idx i0 h1 h2 h3 h4
    rw [find_min, if_pos (by rw [h1]; exact ⟨rfl, rfl⟩)]
    simp only [Option.bind_eq_bind]
    rw [h1]
    simp only [Option.some_bind]
    rw [h2]
    simp only [Option.some_bind]
    rw [h3]
    simp only [Option.some_bind]
    rw [h4]
    simp only [Option.some_bind]
  have hjf : jf = ⟨parts.fields, parts.fields.zip parts.types,
      parts.fields.zip parts.comp, parts.indexes⟩ := by
    have hja := jonxLoad_assemble hEP hA hnd hne hfitp
    rw [hload] at hja
    exact Option.some.inj hja
  obtain ⟨hrne, hfld, hcols, htypes, hcomp, hidx⟩ := encodeParts_spec hEP
  obtain ⟨colBlocks, idxBlocks, hsb, hFcol, hnidx, hFidx, hB⟩ := assemble_spec hA
  obtain ⟨i, hzi⟩ := mem_get?_exists hmem
  obtain ⟨hfj, hctj⟩ := get?_of_zip hzi
  obtain ⟨hcolj, htj⟩ := get?_of_zip hctj
  obtain ⟨cB, hcompj, hcBr⟩ := forall₂_get? (mapM_option_eq_some.mp hcomp) hctj
  obtain ⟨p, hpack, hcBzc⟩ := Option.map_eq_some'.mp hcBr
  subst hcBzc
  have hfit_col : ∀ v ∈ colv, fitsB f16 f32 v t = true :=
    hfitp (colv, t) (List.get?_mem hctj)
  have hplen : p.length < 2 ^ 32 := by
    obtain ⟨blk, _, hlt, _⟩ := forall₂_mem_left hFcol (List.get?_mem hcompj)
    rw [zc_length] at hlt
    omega
  have hlookc : (parts.fields.zip parts.comp).lookup f = some (zc p) :=
    lookup_mem_zip parts.fields parts.comp (f, zc p) hnd
      (List.get?_mem (get?_zip hfj hcompj))
  have hlookt : (parts.fields.zip parts.types).lookup f = some t :=
    lookup_mem_zip parts.fields parts.types (f, t) hnd
      (List.get?_mem (get?_zip hfj htj))
  have hgc : get_column jf f = some colv := by
    rw [hjf, get_column]
    simp only [Option.bind_eq_bind]
    rw [hlookc]
    simp only [Option.some_bind]
    rw [zd_zc hplen]
    simp only [Option.some_bind]
    rw [hlookt]
    simp only [Option.some_bind]
    exact unpack_pack hfit_col hpack
  have htripmem : (f, colv, t) ∈ (parts.fields.zip (parts.columns.zip parts.types)).map
      (fun x => (x.1, x.2.1, x.2.2)) :=
    List.mem_map.mpr ⟨(f, (colv, t)), hmem, rfl⟩
  have hndtrips : (((parts.fields.zip (parts.columns.zip parts.types)).map
      (fun x => (x.1, x.2.1, x.2.2))).map (fun x => x.1)).Nodup := by
    have hc : ((fun x : String × List Value × JType => x.1) ∘
        fun x : String × List Value × JType => (x.1, x.2.1, x.2.2)) = Prod.fst := rfl
    rw [List.map_map, hc]
    exact hnd.sublist (map_fst_zip_sublist ..)
  obtain ⟨ks, hks, hlook⟩ :=
    (buildIndexes_lookup f16 f32 hidx hndtrips htripmem).1 hnum
  have hlen : (dumpNats (build_index ks)).length < 2 ^ 32 := by
    obtain ⟨blk, _, _, hlt, _⟩ := forall₂_mem_left hFidx (mem_of_lookup_eq_some hlook)
    have hlt2 : (zc (dumpNats (build_index ks))).length < 2 ^ 32 := hlt
    rw [zc_length] at hlt2
    omega
  have hlookjf : jf.indexes.lookup f = some (zc (dumpNats (build_index ks))) := by
    rw [hjf]
    exact hlook
  have hforall := mapM_option_eq_some.mp hks
  have hagree : find_min jf f colv true = pyMin colv := by
    cases t with
    | int16 =>
      refine find_min_agree jf f ks (fun q => Value.vInt ⌊q⌋) colv ?_ ?_ hlookjf hlen
      · apply eq_map_of_forall₂
        refine forall₂_imp_mem hforall ?_
        intro v hv q _ hR
        obtain ⟨n, rfl⟩ := fitsB_int16_shape (hfit_col v hv)
        have h2 : (some ((n : ℚ)) : Option ℚ) = some q := hR
        show Value.vInt n = Value.vInt ⌊q⌋
        rw [← Option.some.inj h2, Int.floor_intCast]
      · intro q hq
        obtain ⟨v, hv, hvq⟩ := forall₂_mem_right hforall hq
        obtain ⟨n, rfl⟩ := fitsB_int16_shape (hfit_col v hv)
        have h2 : (some ((n : ℚ)) : Option ℚ) = some q := hvq
        show numToRat (Value.vInt ⌊q⌋) = some q
        rw [← Option.some.inj h2, Int.floor_intCast]
        rfl
    | int32 =>
      refine find_min_agree jf f ks (fun q => Value.vInt ⌊q⌋) colv ?_ ?_ hlookjf hlen
      · apply eq_map_of_forall₂
        refine forall₂_imp_mem hforall ?_
        intro v hv q _ hR
        obtain ⟨n, rfl⟩ := fitsB_int32_shape (hfit_col v hv)
        have h2 : (some ((n : ℚ)) : Option ℚ) = some q := hR
        show Value.vInt n = Value.vInt ⌊q⌋
        rw [← Option.some.inj h2, Int.floor_intCast]
      · intro q hq
        obtain ⟨v, hv, hvq⟩ := forall₂_mem_right hforall hq
        obtain ⟨n, rfl⟩ := fitsB_int32_shape (hfit_col v hv)
        have h2 : (some ((n : ℚ)) : Option ℚ) = some q := hvq
        show numToRat (Value.vInt ⌊q⌋) = some q
        rw [← Option.some.inj h2, Int.floor_intCast]
        rfl
    | float16 =>
      refine find_min_agree jf f ks Value.vFloat colv ?_ ?_ hlookjf hlen
      · apply eq_map_of_forall₂
        refine forall₂_imp_mem hforall ?_
        intro v hv q _ hR
        obtain ⟨qv, rfl⟩ := fitsB_float16_shape (hfit_col v hv)
        have h2 : (some qv : Option ℚ) = some q := hR
        rw [Option.some.inj h2]
      · intro q _
        rfl
    | float32 =>
      refine find_min_agree jf f ks Value.vFloat colv ?_ ?_ hlookjf hlen
      · apply eq_map_of_forall₂
        refine forall₂_imp_mem hforall ?_
        intro v hv q _ hR
        obtain ⟨qv, rfl⟩ := fitsB_float32_shape (hfit_col v hv)
        have h2 : (some qv : Option ℚ) = some q := hR
        rw [Option.some.inj h2]
      · intro q _
        rfl
    | bool => exact Bool.noConfusion hnum
    | str => exact Bool.noConfusion hnum
    | json => exact Bool.noConfusion hnum
  refine ⟨hpart1, hpart2, hgc, ?_, hpart1 jf f colv⟩
  rw [hagree, hpart1 jf f colv]

/-- C9 witness: for `[{"x": 2.5}, {"x": 0.5}, {"x": 1.5}]`, the loaded
column is intact and both query modes return its minimum `0.5`. -/
theorem C9_witness :
    get_column jfF "x" = some [Value.vFloat (Rat.divInt 5 2),
      Value.vFloat (Rat.divInt 1 2), Value.vFloat (Rat.divInt 3 2)] ∧
    find_min jfF "x" [Value.vFloat (Rat.divInt 5 2), Value.vFloat (Rat.divInt 1 2),
      Value.vFloat (Rat.divInt 3 2)] true =
      find_min jfF "x" [Value.vFloat (Rat.divInt 5 2), Value.vFloat (Rat.divInt 1 2),
        Value.vFloat (Rat.divInt 3 2)] false ∧
    find_min jfF "x" [Value.vFloat (Rat.divInt 5 2), Value.vFloat (Rat.divInt 1 2),
      Value.vFloat (Rat.divInt 3 2)] false =
      pyMin [Value.vFloat (Rat.divInt 5 2), Value.vFloat (Rat.divInt 1 2),
        Value.vFloat (Rat.divInt 3 2)] :=
  (C9_find_min id id rowsF partsF rowsFB jfF "x"
    [Value.vFloat (Rat.divInt 5 2), Value.vFloat (Rat.divInt 1 2),
      Value.vFloat (Rat.divInt 3 2)] JType.float16
    (by decide) (by decide) (by decide) (by decide) (by decide) (by decide)
    (by decide) (by decide)).2.2


/-! ## Claim C2 — decoding a truncated container -/

/-- How a bounds-checked `k`-byte read behaves on a truncated buffer:
it fails if fewer than `k` bytes remain, and otherwise returns the same
bytes with the rest truncated accordingly. -/
theorem takeN_take {k : ℕ} {l a rest : List ℕ} (h : takeN k l = some (a, rest)) (T : ℕ) :
    takeN k (l.take T) = if k ≤ T then some (a, rest.take (T - k)) else none := by
  rw [takeN] at h
  by_cases hk : k ≤ l.length
  · rw [if_pos hk] at h
    injection h with h2
    injection h2 with ha hr
    subst ha
    subst hr
    rw [takeN, List.length_take]
    by_cases hkT : k ≤ T
    · rw [if_pos (by omega), if_pos hkT, List.take_take, min_eq_left hkT, List.drop_take]
    · rw [if_neg (by omega), if_neg hkT]
  · rw [if_neg hk] at h
    exact Option.noConfusion h

theorem readHeader_take {b : List ℕ} {v : ℕ} {rest : List ℕ}
    (h : readHeader b = some (v, rest)) (T : ℕ) :
    readHeader (b.take T) = none ∨
      readHeader (b.take T) = some (v, rest.take (T - 8)) := by
  rw [readHeader] at h
  by_cases hm : b.take 4 = MAGIC
  · rw [if_pos hm] at h
    cases ht : takeN 4 (b.drop 4) with
    | none => rw [ht] at h; exact Option.noConfusion h
    | some p =>
      rw [ht] at h
      rcases p with ⟨p1, p2⟩
      simp only [Option.map_some'] at h
      injection h with h2
      injection h2 with hv hr
      have hd : (b.take T).drop 4 = (b.drop 4).take (T - 4) := by rw [List.drop_take]
      by_cases hT : 8 ≤ T
      · right
        rw [readHeader]
        have hm2 : (b.take T).take 4 = MAGIC := by
          rw [List.take_take, min_eq_left (by omega)]
          exact hm
        rw [if_pos hm2, hd, takeN_take ht (T - 4), if_pos (by omega)]
        simp only [Option.map_some']
        have he : T - 4 - 4 = T - 8 := by omega
        rw [he, hv, hr]
      · left
        rw [readHeader]
        by_cases hm2 : (b.take T).take 4 = MAGIC
        · rw [if_pos hm2, hd, takeN_take ht (T - 4), if_neg (by omega)]
          rfl
        · rw [if_neg hm2]
  · rw [if_neg hm] at h
    exact Option.noConfusion h

theorem readBlock_take {l blk r : List ℕ}
    (h : readBlock l = some (blk, r)) (T : ℕ) :
    readBlock (l.take T) = none ∨ ∃ T2, readBlock (l.take T) = some (blk, r.take T2) := by
  rw [readBlock] at h
  simp only [Option.bind_eq_bind, Option.bind_eq_some] at h
  obtain ⟨⟨lb, r1⟩, h1, h2⟩ := h
  rw [readBlock]
  simp only [Option.bind_eq_bind]
  rw [takeN_take h1 T]
  by_cases hT : 4 ≤ T
  · rw [if_pos hT]
    simp only [Option.some_bind]
    rw [takeN_take h2 (T - 4)]
    by_cases hT2 : fromLE4 lb ≤ T - 4
    · right
      exact ⟨T - 4 - fromLE4 lb, by rw [if_pos hT2]⟩
    · left
      rw [if_neg hT2]
  · left
    rw [if_neg hT]
    rfl

theorem readCols_take (types : List (String × JType)) :
    ∀ (fs : List String) {l : List ℕ} {cols : List (String × List Value)} {r : List ℕ},
      readCols types fs l = some (cols, r) → ∀ T,
      readCols types fs (l.take T) = none ∨
        ∃ T2, readCols types fs (l.take T) = some (cols, r.take T2) := by
  intro fs
  induction fs with
  | nil =>
    intro l cols r h T
    rw [readCols] at h
    injection h with h2
    injection h2 with hc hr
    right
    exact ⟨T, by rw [readCols, ← hc, ← hr]⟩
  | cons f fs ih =>
    intro l cols r h T
    rw [readCols] at h
    simp only [Option.bind_eq_bind, Option.bind_eq_some] at h
    obtain ⟨⟨blk, r1⟩, hB, h⟩ := h
    obtain ⟨packed, hzd, h⟩ := h
    obtain ⟨t, ht, h⟩ := h
    obtain ⟨col, hcol, h⟩ := h
    obtain ⟨⟨cols2, r2⟩, hrec, h⟩ := h
    injection h with h2
    injection h2 with hc hr
    rw [readCols]
    simp only [Option.bind_eq_bind]
    rcases readBlock_take hB T with hn | ⟨T2, hs⟩
    · left; rw [hn]; rfl
    · rw [hs]
      simp only [Option.some_bind]
      rw [hzd]
      simp only [Option.some_bind]
      rw [ht]
      simp only [Option.some_bind]
      rw [hcol]
      simp only [Option.some_bind]
      rcases ih hrec T2 with hn2 | ⟨T3, hs2⟩
      · left; rw [hn2]; rfl
      · right
        refine ⟨T3, ?_⟩
        rw [hs2]
        simp only [Option.some_bind]
        rw [← hc, ← hr]
        rfl

theorem skipIndexes_take :
    ∀ (k : ℕ) {l s : List ℕ}, skipIndexes k l = some s → ∀ T,
      skipIndexes k (l.take T) = none ∨ ∃ s2, skipIndexes k (l.take T) = some s2 := by
  intro k
  induction k with
  | zero => intro l s _ T; right; exact ⟨l.take T, rfl⟩
  | succ k ih =>
    intro l s h T
    rw [skipIndexes] at h
    simp only [Option.bind_eq_bind, Option.bind_eq_some] at h
    obtain ⟨⟨nl, r⟩, h1, h⟩ := h
    obtain ⟨⟨il, r3⟩, h2, h⟩ := h
    rw [skipIndexes]
    simp only [Option.bind_eq_bind]
    rw [takeN_take h1 T]
    by_cases hT : 4 ≤ T
    · rw [if_pos hT]
      simp only [Option.some_bind]
      have hd : (r.take (T - 4)).drop (fromLE4 nl) =
          (r.drop (fromLE4 nl)).take (T - 4 - fromLE4 nl) := by
        rw [List.drop_take]
      rw [hd, takeN_take h2 (T - 4 - fromLE4 nl)]
      by_cases hT2 : 4 ≤ T - 4 - fromLE4 nl
      · rw [if_pos hT2]
        simp only [Option.some_bind]
        have hd2 : (r3.take (T - 4 - fromLE4 nl - 4)).drop (fromLE4 il) =
            (r3.drop (fromLE4 il)).take (T - 4 - fromLE4 nl - 4 - fromLE4 il) := by
          rw [List.drop_take]
        rw [hd2]
        exact ih h _
      · rw [if_neg hT2]; left; rfl
    · rw [if_neg hT]; left; rfl


/-- C2 counterexample: dropping the final byte of the container for
`[{"a": 1}]` (a strict prefix) still decodes successfully — the byte
lost belongs to the stored index payload, which the decoder skips
without reading — contradicting "truncating the byte buffer at any
point before the final byte must cause an error". -/
theorem C2_counterexample :
    (rowsAB.take (rowsAB.length - 1)).length < rowsAB.length ∧
    decode_from_bytes (rowsAB.take (rowsAB.length - 1)) =
      some ⟨1, ["a"], [("a", JType.int16)], 1, [[("a", Value.vInt 1)]]⟩ := by
  decide

/-- C2 (amended): decoding any truncation of a decodable container
either fails or returns exactly the original decode result — every
read is bounds-checked (`struct.unpack` and the zstd frame check), so
no out-of-bounds access and no wrong or silently incomplete records
are possible; a successful decode of a strict prefix can only happen
when the bytes lost are skipped index payload. -/
theorem C2_truncation_amended (B : List ℕ) (res : DecodeResult) (T : ℕ)
    (hdec : decode_from_bytes B = some res) (hT : T < B.length) :
    decode_from_bytes (B.take T) = none ∨ decode_from_bytes (B.take T) = some res := by
  rw [decode_from_bytes] at hdec
  simp only [Option.bind_eq_bind, Option.bind_eq_some] at hdec
  obtain ⟨⟨version, c1⟩, hH, hdec⟩ := hdec
  obtain ⟨⟨sb, c2⟩, hSB, hdec⟩ := hdec
  obtain ⟨sc, hzd, hdec⟩ := hdec
  obtain ⟨⟨fields, types⟩, hPS, hdec⟩ := hdec
  obtain ⟨⟨cols, c3⟩, hRC, hdec⟩ := hdec
  obtain ⟨⟨nIdxB, c4⟩, hNI, hdec⟩ := hdec
  obtain ⟨s, hSI, hrec⟩ := hdec
  rw [decode_from_bytes]
  simp only [Option.bind_eq_bind]
  rcases readHeader_take hH T with hn | hs
  · left; rw [hn]; rfl
  · rw [hs]
    simp only [Option.some_bind]
    rcases readBlock_take hSB (T - 8) with hn | ⟨T2, hs2⟩
    · left; rw [hn]; rfl
    · rw [hs2]
      simp only [Option.some_bind]
      rw [hzd]
      simp only [Option.some_bind]
      rw [hPS]
      simp only [Option.some_bind]
      rcases readCols_take types fields hRC T2 with hn | ⟨T3, hs3⟩
      · left; rw [hn]; rfl
      · rw [hs3]
        simp only [Option.some_bind]
        rw [takeN_take hNI T3]
        by_cases hT4 : 4 ≤ T3
        · rw [if_pos hT4]
          simp only [Option.some_bind]
          rcases skipIndexes_take (fromLE4 nIdxB) hSI (T3 - 4) with hn | ⟨s2, hs4⟩
          · left; rw [hn]; rfl
          · rw [hs4]
            simp only [Option.some_bind]
            right
            exact hrec
        · rw [if_neg hT4]; left; rfl

/-- C2 witness: applying the amended truncation theorem to the
container of `[{"a": 1}]` truncated by one byte. -/
theorem C2_witness :
    decode_from_bytes (rowsAB.take (rowsAB.length - 1)) = none ∨
    decode_from_bytes (rowsAB.take (rowsAB.length - 1)) =
      some ⟨1, ["a"], [("a", JType.int16)], 1, [[("a", Value.vInt 1)]]⟩ :=
  C2_truncation_amended rowsAB ⟨1, ["a"], [("a", JType.int16)], 1, [[("a", Value.vInt 1)]]⟩
    (rowsAB.length - 1) (by decide) (by decide)


end JSONPP
